import Mathlib

/-!
# Verification of the `gotestdox` prettifier

A shallow embedding of `prettifier.go` from `thiagonache/gotestdox`:
the function `Prettify` turns a Go test name such as
`TestHandleInput_ClosesInputAfterReading` into a readable sentence.

Modelling conventions:

* Go strings are modelled as their rune sequences (`List Char`); `[]rune(s)`
  is the identity under this view, and `string(rs)` is `String.mk`.
* Character classification (`unicode.IsUpper`, `IsLower`, `IsDigit`) is
  modelled exactly on the Latin-1 range (`goIsUpper`, `goIsLower`,
  `goIsDigit`), which is the realm of the model; the case mappings
  (`cases.Lower`, and the title mapping used by `cases.Title`) are modelled
  by `goToLower`/`goToUpper`, which agree with Go on all of Latin-1 except
  the five runes `µ ß ÿ ª º` and the soft hyphen, whose Go mappings leave
  Latin-1 (these six runes are outside the modelled realm).  Go's byte
  length `len(word)` is modelled faithfully as the UTF-8 length `byteLen`.
  `cases.Title(language.Und, cases.NoLower)` is modelled by `titleRun`,
  which mirrors the `x/text/cases` title transformer: the first cased rune
  of every word is mapped to title case (word-medial runes `'` `.` `:` do
  not break a word, two adjacent medial runes do, digits and `_` neither
  break nor start a word), and `NoLower` leaves every other rune
  untouched.
* Go slice indexing panics when out of bounds; the corresponding accessors
  (`prev`, `next`, the final index read of `isInitialism`) therefore return
  `Option` here, and the machine propagates `none`.  The slice expressions
  `p.input[p.start:p.pos]`, whose bounds are established by the cursor
  invariant, are modelled with the (total, clamping) `sliceList`.
* The `for state := betweenWords; state != nil` driver loop is modelled by
  the fuel-indexed `runF`; one unit of fuel corresponds to one iteration of
  the inner loop of a state function.  `prettifyFuel` units are proved
  sufficient below.
* The debug stream (`p.log`, `p.logState`) is modelled by ghost fields of
  the state: `trace` records (abbreviated) log lines, `folds` records the
  cursor position at each `multiWordFunction` call, `hist` records the
  cursor pair at each loop iteration, and `emits` records each raw word
  passed to `emit` together with the rendering that was appended to `words`.
  The ghost fields are write-only: no decision of the machine reads them.
-/

namespace Gotestdox

/-- `const eof rune = 0` from the source. -/
def eofRune : Char := Char.ofNat 0

/-- Go `l[s:t]` on a rune slice (total; the machine only uses it with
`s ≤ t ≤ l.length`, which is proved as part of the cursor invariant). -/
def sliceList (l : List Char) (s t : Nat) : List Char :=
  (l.drop s).take (t - s)

/-- `unicode.IsUpper` on the Latin-1 realm: `A`–`Z`, `À`–`Ö`,
`Ø`–`Þ`. -/
def goIsUpper (c : Char) : Bool :=
  (decide (65 ≤ c.toNat) && decide (c.toNat ≤ 90)) ||
  (decide (0xC0 ≤ c.toNat) && decide (c.toNat ≤ 0xD6)) ||
  (decide (0xD8 ≤ c.toNat) && decide (c.toNat ≤ 0xDE))

/-- `unicode.IsLower` on the Latin-1 realm: `a`–`z`, `µ`, `ß`–`ö`,
`ø`–`ÿ`. -/
def goIsLower (c : Char) : Bool :=
  (decide (97 ≤ c.toNat) && decide (c.toNat ≤ 122)) ||
  decide (c.toNat = 0xB5) ||
  (decide (0xDF ≤ c.toNat) && decide (c.toNat ≤ 0xF6)) ||
  (decide (0xF8 ≤ c.toNat) && decide (c.toNat ≤ 0xFF))

/-- `unicode.IsDigit` on the Latin-1 realm: `0`–`9` (Latin-1 has no other
decimal digits). -/
def goIsDigit (c : Char) : Bool :=
  decide (48 ≤ c.toNat) && decide (c.toNat ≤ 57)

/-- The upper/title-case mapping on the modelled realm: `a`–`z` and
`à`–`þ` (excluding `÷`) map down by 32; everything else is unchanged
(Go maps `µ`, `ß`, `ÿ` outside Latin-1 — outside the modelled realm). -/
def goToUpper (c : Char) : Char :=
  if (decide (97 ≤ c.toNat) && decide (c.toNat ≤ 122)) ||
      (decide (0xE0 ≤ c.toNat) && decide (c.toNat ≤ 0xFE) &&
        decide (c.toNat ≠ 0xF7)) then
    Char.ofNat (c.toNat - 32)
  else c

/-- The lower-case mapping (`cases.Lower(language.Und)`) on the Latin-1
realm: `A`–`Z` and `À`–`Þ` (excluding `×`) map up by 32; exact on all
of Latin-1. -/
def goToLower (c : Char) : Char :=
  if (decide (65 ≤ c.toNat) && decide (c.toNat ≤ 90)) ||
      (decide (0xC0 ≤ c.toNat) && decide (c.toNat ≤ 0xDE) &&
        decide (c.toNat ≠ 0xD7)) then
    Char.ofNat (c.toNat + 32)
  else c

/-- The UTF-8 byte width of a rune: Go's `len` on strings counts these. -/
def utf8Len (c : Char) : Nat :=
  if c.toNat < 0x80 then 1
  else if c.toNat < 0x800 then 2
  else if c.toNat < 0x10000 then 3
  else 4

/-- Go's `len(word)` for a word given as a rune sequence: its UTF-8 byte
length. -/
def byteLen (w : List Char) : Nat := (w.map utf8Len).sum

/-- A cased rune (Latin-1 realm). -/
def isCasedChar (c : Char) : Bool := goIsUpper c || goIsLower c

/-- Word-medial runes for title casing (Latin-1/ASCII realm): the
`MidLetter` `:`, the `MidNumLet` `.`, and the single quote. -/
def isMidChar (c : Char) : Bool := c == '\'' || c == '.' || c == ':'

/-- Runes that end a word for title casing: everything except cased
runes, digits (`Numeric`), `_` (`ExtendNumLet`) and the medial runes. -/
def isBreakChar (c : Char) : Bool :=
  !(isCasedChar c || goIsDigit c || c == '_' || isMidChar c)

/-- Two adjacent word-medial runes end the word (`x/text` resets
`isMidWord` when a medial rune follows a medial rune). -/
def resetMid (mid wasMid : Bool) (c : Char) : Bool :=
  if wasMid && isMidChar c then false else mid

/-- The `x/text/cases` title transformer with the `NoLower` option, on
the modelled realm: `mid` is the `isMidWord` state (are we inside a
word?), `wasMid` records whether the previous rune was word-medial.  A
cased rune at a word start is mapped to title case and enters a word; a
cased rune inside a word is copied (`NoLower`); any other rune is copied,
ending the word exactly when it is a break rune. -/
def titleRun : Bool → Bool → List Char → List Char
  | _, _, [] => []
  | mid, wasMid, c :: cs =>
      if isCasedChar c then
        (if resetMid mid wasMid c then c else goToUpper c) ::
          titleRun true (isMidChar c) cs
      else
        c :: titleRun
          (if isBreakChar c then false else resetMid mid wasMid c)
          (isMidChar c) cs

/-- Model of `cases.Title(language.Und, cases.NoLower).String` on a single
word. -/
def titleWord (w : List Char) : List Char := titleRun false false w

/-- Model of `cases.Lower(language.Und).String`. -/
def lowerWord (w : List Char) : List Char :=
  w.map goToLower

/-- `strings.Join(words, " ")`. -/
def joinWords : List (List Char) → List Char
  | [] => []
  | [w] => w
  | w :: ws => w ++ ' ' :: joinWords ws

/-- `strings.TrimPrefix(input, "Test")`: drop one leading `"Test"` if
present. -/
def trimTest (l : List Char) : List Char :=
  if l.take 4 = ['T', 'e', 's', 't'] then l.drop 4 else l

/-- The scanner state (`type prettifier struct`).  The fields `trace`,
`folds`, `hist` and `emits` are ghost instrumentation of the debug log (see
the module docstring); they are never read by the machine. -/
structure Prettifier where
  input : List Char
  start : Nat
  pos : Nat
  words : List (List Char)
  inSubTest : Bool
  seenUnderscore : Bool
  trace : List String
  folds : List Nat
  hist : List (Nat × Nat)
  emits : List (List Char × List Char)
  deriving DecidableEq, Repr

namespace Prettifier

/-- `func (p *prettifier) skip()`. -/
def skip (p : Prettifier) : Prettifier :=
  { p with start := p.pos }

/-- The state effect of `func (p *prettifier) walk()` (`p.pos++`); the rune
it returns is `peek` evaluated before the increment. -/
def walk (p : Prettifier) : Prettifier :=
  { p with pos := p.pos + 1 }

/-- `func (p *prettifier) peek()`: the rune at `pos`, or the `eof` sentinel
past the end. -/
def peek (p : Prettifier) : Char :=
  match p.input[p.pos]? with
  | some c => c
  | none => eofRune

/-- `func (p *prettifier) prev()`: `p.input[p.pos-1]`, which in Go panics
for `p.pos = 0` (index `-1`) or `p.pos - 1 ≥ len(input)`. -/
def prev (p : Prettifier) : Option Char :=
  if p.pos = 0 then none else p.input[p.pos - 1]?

/-- `func (p *prettifier) next()`: the rune after `pos`, clamped to the rune
at `pos` when that would run past the end (`p.pos+1 >= len(p.input)`); the
fallback read `p.input[p.pos]` itself panics in Go when `p.pos ≥ len`. -/
def next (p : Prettifier) : Option Char :=
  if p.pos + 1 ≥ p.input.length then p.input[p.pos]?
  else p.input[p.pos + 1]?

/-- `func (p *prettifier) isInitialism()`: no lower-case rune strictly
before index `end := max (pos-1) start`, and the rune at `end` is
upper-case, a digit, or `'s'`.  (In Go, `end` is `p.pos - 1` clamped below
by `p.start`; over `Nat` the clamp `max (p.pos - 1) p.start` coincides with
the Go `int` computation.)  The read `p.input[end]` is the fallible part. -/
def isInitialism (p : Prettifier) : Option Bool :=
  match p.input[max (p.pos - 1) p.start]? with
  | none => none
  | some c =>
      some ((sliceList p.input p.start (max (p.pos - 1) p.start)).all
          (fun r => !(goIsLower r)) &&
        (goIsUpper c || goIsDigit c || c == 's'))

/-- `func (p *prettifier) inInitialism()`: the disjunction of the three
`prev`/`next` tests in the source. -/
def inInitialism (p : Prettifier) : Option Bool :=
  match p.prev, p.next with
  | some pr, some nx =>
      some (goIsUpper pr && (goIsUpper nx || goIsDigit nx || nx == 's'))
  | _, _ => none

/-- The rendering `emit` applies to the raw word, following the order of the
`switch` in the source: first word → title-case; short word → lower-case
unless it is exactly `"OK"`; initialism → unchanged; otherwise lower-case. -/
def renderWord (p : Prettifier) (word : List Char) : Option (List Char) :=
  if p.words.isEmpty then some (titleWord word)
  else if byteLen word < 3 then
    if word = ['O', 'K'] then some word else some (lowerWord word)
  else
    match p.isInitialism with
    | none => none
    | some true => some word
    | some false => some (lowerWord word)

/-- `func (p *prettifier) emit()`: render `p.input[p.start:p.pos]`, append
it to `words`, and `skip`. -/
def emit (p : Prettifier) : Option Prettifier :=
  match renderWord p (sliceList p.input p.start p.pos) with
  | none => none
  | some w =>
      some { p with
        words := p.words ++ [w]
        emits := p.emits ++ [(sliceList p.input p.start p.pos, w)]
        trace := p.trace ++ ["emit"]
        start := p.pos }

/-- `func (p *prettifier) multiWordFunction()`: replace the accumulated
words by their title-cased concatenation and set `seenUnderscore`.  The
ghost field `folds` records the cursor position of the triggering
underscore (the call site leaves `pos` at that underscore). -/
def multiWordFunction (p : Prettifier) : Prettifier :=
  { p with
    words := [(p.words.map titleWord).flatten]
    seenUnderscore := true
    trace := p.trace ++ ["multiword function"]
    folds := p.folds ++ [p.pos] }

/-- Ghost bookkeeping for `p.logState`: record the cursor at the head of a
state-function loop iteration. -/
def logState (p : Prettifier) (name : String) : Prettifier :=
  { p with
    trace := p.trace ++ [name]
    hist := p.hist ++ [(p.start, p.pos)] }

end Prettifier

/-- The two non-terminal states of the machine (`betweenWords`, `inWord`);
returning `some` final state models reaching the `nil` state. -/
inductive MState where
  | between
  | inword
  deriving DecidableEq, Repr

open MState Prettifier

/-- One fuel unit per loop iteration of `betweenWords` / `inWord`.  The
branches follow the two `switch` statements of the source in order; `none`
results either from fuel exhaustion or from an out-of-bounds access in
`prev` / `next` / `isInitialism` (both are proved impossible below). -/
def runF : Nat → MState → Prettifier → Option Prettifier
  | 0, _, _ => none
  | fuel + 1, .between, p₀ =>
      let p := p₀.logState "betweenWords"
      let c := p.peek
      let p1 := p.walk
      if c = eofRune then some p1
      else if c = '_' ∨ c = '/' then runF fuel .between p1.skip
      else runF fuel .inword p1
  | fuel + 1, .inword, p₀ =>
      let p := p₀.logState "inWord"
      let c := p.peek
      if c = eofRune then p.emit
      else if c = '_' then
        match p.emit with
        | none => none
        | some q =>
            if !q.seenUnderscore && !q.inSubTest then
              runF fuel .between q.multiWordFunction
            else runF fuel .between q
      else if c = '/' then
        match p.emit with
        | none => none
        | some q => runF fuel .between { q with inSubTest := true }
      else if goIsDigit c then
        match p.prev with
        | none => none
        | some pr =>
            if goIsDigit pr then runF fuel .inword p.walk
            else if pr = '-' then runF fuel .inword p.walk
            else if pr = '=' then runF fuel .inword p.walk
            else
              match p.inInitialism with
              | none => none
              | some true => runF fuel .inword p.walk
              | some false =>
                  match p.emit with
                  | none => none
                  | some q => runF fuel .between q
      else if goIsUpper c then
        match p.inInitialism with
        | none => none
        | some true => runF fuel .inword p.walk
        | some false =>
            match p.emit with
            | none => none
            | some q => runF fuel .between q
      else runF fuel .inword p.walk

/-- The initial state built by `Prettify`: the input with one leading
`"Test"` trimmed, everything else zeroed (the `log("input:", input)` line
seeds the ghost trace). -/
def initState (input : String) : Prettifier :=
  { input := trimTest input.data
    start := 0
    pos := 0
    words := []
    inSubTest := false
    seenUnderscore := false
    trace := ["input"]
    folds := []
    hist := []
    emits := [] }

/-- Fuel that is proved sufficient for every input: the cursor strictly
advances at least every other iteration. -/
def prettifyFuel (input : String) : Nat :=
  2 * (trimTest input.data).length + 2

/-- The final machine state reached by `Prettify` on `input`. -/
def finalState (input : String) : Option Prettifier :=
  runF (prettifyFuel input) .between (initState input)

/-- `func Prettify(input string) string`: run the machine and join the words
with single spaces.  `none` models a Go runtime panic (proved impossible
below) or fuel exhaustion (ditto). -/
def Prettify (input : String) : Option String :=
  (finalState input).map (fun q => String.mk (joinWords q.words))

/-- The `GOTESTDOX_DEBUG` / `DebugWriter` wiring of `Prettify`: the result
string, paired with the lines that reach the debug sink — the recorded
trace when the environment switch is set, nothing when it is not (writes to
`io.Discard` vanish). -/
def prettifyWithDebug (debugSet : Bool) (input : String) :
    Option String × List String :=
  (Prettify input,
    if debugSet then ((finalState input).map Prettifier.trace).getD [] else [])

/-! ## Field bookkeeping -/

section Projections

variable {p : Prettifier} {s : String}

@[simp] theorem logState_input : (p.logState s).input = p.input := rfl

@[simp] theorem logState_start : (p.logState s).start = p.start := rfl

@[simp] theorem logState_pos : (p.logState s).pos = p.pos := rfl

@[simp] theorem logState_words : (p.logState s).words = p.words := rfl

@[simp] theorem logState_inSubTest : (p.logState s).inSubTest = p.inSubTest := rfl

@[simp] theorem logState_seenUnderscore :
    (p.logState s).seenUnderscore = p.seenUnderscore := rfl

@[simp] theorem logState_folds : (p.logState s).folds = p.folds := rfl

@[simp] theorem logState_emits : (p.logState s).emits = p.emits := rfl

@[simp] theorem logState_hist :
    (p.logState s).hist = p.hist ++ [(p.start, p.pos)] := rfl

@[simp] theorem logState_peek : (p.logState s).peek = p.peek := rfl

@[simp] theorem logState_prev : (p.logState s).prev = p.prev := rfl

@[simp] theorem logState_next : (p.logState s).next = p.next := rfl

@[simp] theorem logState_inInitialism :
    (p.logState s).inInitialism = p.inInitialism := rfl

@[simp] theorem walk_input : p.walk.input = p.input := rfl

@[simp] theorem walk_start : p.walk.start = p.start := rfl

@[simp] theorem walk_pos : p.walk.pos = p.pos + 1 := rfl

@[simp] theorem walk_words : p.walk.words = p.words := rfl

@[simp] theorem walk_inSubTest : p.walk.inSubTest = p.inSubTest := rfl

@[simp] theorem walk_seenUnderscore :
    p.walk.seenUnderscore = p.seenUnderscore := rfl

@[simp] theorem walk_folds : p.walk.folds = p.folds := rfl

@[simp] theorem walk_emits : p.walk.emits = p.emits := rfl

@[simp] theorem walk_hist : p.walk.hist = p.hist := rfl

@[simp] theorem skip_input : p.skip.input = p.input := rfl

@[simp] theorem skip_start : p.skip.start = p.pos := rfl

@[simp] theorem skip_pos : p.skip.pos = p.pos := rfl

@[simp] theorem skip_words : p.skip.words = p.words := rfl

@[simp] theorem skip_inSubTest : p.skip.inSubTest = p.inSubTest := rfl

@[simp] theorem skip_seenUnderscore :
    p.skip.seenUnderscore = p.seenUnderscore := rfl

@[simp] theorem skip_folds : p.skip.folds = p.folds := rfl

@[simp] theorem skip_emits : p.skip.emits = p.emits := rfl

@[simp] theorem skip_hist : p.skip.hist = p.hist := rfl

@[simp] theorem mwf_input : p.multiWordFunction.input = p.input := rfl

@[simp] theorem mwf_start : p.multiWordFunction.start = p.start := rfl

@[simp] theorem mwf_pos : p.multiWordFunction.pos = p.pos := rfl

@[simp] theorem mwf_words :
    p.multiWordFunction.words = [(p.words.map titleWord).flatten] := rfl

@[simp] theorem mwf_inSubTest :
    p.multiWordFunction.inSubTest = p.inSubTest := rfl

@[simp] theorem mwf_seenUnderscore :
    p.multiWordFunction.seenUnderscore = true := rfl

@[simp] theorem mwf_folds :
    p.multiWordFunction.folds = p.folds ++ [p.pos] := rfl

@[simp] theorem mwf_emits : p.multiWordFunction.emits = p.emits := rfl

@[simp] theorem mwf_hist : p.multiWordFunction.hist = p.hist := rfl

end Projections

/-- Inversion for `emit`: a successful `emit` only appends the rendered
word (and ghost entries) and advances `start` to `pos`. -/
theorem emit_inv {p q : Prettifier} (h : p.emit = some q) :
    ∃ w, p.renderWord (sliceList p.input p.start p.pos) = some w ∧
      q = { p with
        words := p.words ++ [w]
        emits := p.emits ++ [(sliceList p.input p.start p.pos, w)]
        trace := p.trace ++ ["emit"]
        start := p.pos } := by
  unfold Prettifier.emit at h
  cases hrw : p.renderWord (sliceList p.input p.start p.pos) with
  | none => rw [hrw] at h; cases h
  | some w =>
      rw [hrw] at h
      exact ⟨w, rfl, (Option.some.inj h).symm⟩

/-! ## Cursor invariant and totality -/

/-- The cursor invariant at the head of a state-function loop iteration:
between words the last `emit`/`skip` has aligned `start` with `pos`; inside
a word the slice `input[start:pos]` is nonempty.  In both states the cursor
is within the input. -/
def Inv : MState → Prettifier → Prop
  | .between, p => p.start = p.pos ∧ p.pos ≤ p.input.length
  | .inword, p => p.start < p.pos ∧ p.pos ≤ p.input.length

/-- Loop iterations left: the cursor advances at least every other
iteration. -/
def fuelNeed : MState → Prettifier → Nat
  | .between, p => 2 * (p.input.length - p.pos) + 1
  | .inword, p => 2 * (p.input.length - p.pos) + 2

theorem peek_pos_lt {p : Prettifier} (h : p.peek ≠ eofRune) :
    p.pos < p.input.length := by
  by_contra hlt
  have hn : p.input[p.pos]? = none := List.getElem?_eq_none (by omega)
  simp [Prettifier.peek, hn] at h

theorem peek_get {p : Prettifier} (h : p.peek ≠ eofRune) :
    p.input[p.pos]? = some p.peek := by
  have hlt := peek_pos_lt h
  simp [Prettifier.peek, List.getElem?_eq_getElem hlt]

theorem prev_isSome {p : Prettifier} (h1 : 1 ≤ p.pos)
    (h2 : p.pos ≤ p.input.length) : ∃ c, p.prev = some c := by
  have hlt : p.pos - 1 < p.input.length := by omega
  refine ⟨p.input[p.pos - 1], ?_⟩
  unfold Prettifier.prev
  rw [if_neg (by omega), List.getElem?_eq_getElem hlt]

theorem next_isSome {p : Prettifier} (h : p.pos < p.input.length) :
    ∃ c, p.next = some c := by
  unfold Prettifier.next
  split
  · exact ⟨_, List.getElem?_eq_getElem h⟩
  · exact ⟨_, List.getElem?_eq_getElem (by omega)⟩

theorem inInitialism_isSome {p : Prettifier} (h1 : 1 ≤ p.pos)
    (h2 : p.pos < p.input.length) : ∃ b, p.inInitialism = some b := by
  obtain ⟨c, hc⟩ := prev_isSome h1 (by omega)
  obtain ⟨d, hd⟩ := next_isSome h2
  unfold Prettifier.inInitialism
  rw [hc, hd]
  exact ⟨_, rfl⟩

theorem isInitialism_isSome {p : Prettifier} (h1 : p.start < p.pos)
    (h2 : p.pos ≤ p.input.length) : ∃ b, p.isInitialism = some b := by
  have hlt : max (p.pos - 1) p.start < p.input.length := by omega
  unfold Prettifier.isInitialism
  rw [List.getElem?_eq_getElem hlt]
  exact ⟨_, rfl⟩

/-- `emit` succeeds whenever the current slice is nonempty and in bounds,
and only appends: the cursor, the input and the flags are untouched, and
`start` is advanced to `pos`. -/
theorem emit_eq {p : Prettifier} (h1 : p.start < p.pos)
    (h2 : p.pos ≤ p.input.length) :
    ∃ w, p.emit = some
      { p with
        words := p.words ++ [w]
        emits := p.emits ++ [(sliceList p.input p.start p.pos, w)]
        trace := p.trace ++ ["emit"]
        start := p.pos } := by
  have hr : ∃ w, p.renderWord (sliceList p.input p.start p.pos) = some w := by
    unfold Prettifier.renderWord
    split
    · exact ⟨_, rfl⟩
    · split
      · split
        · exact ⟨_, rfl⟩
        · exact ⟨_, rfl⟩
      · obtain ⟨b, hb⟩ := isInitialism_isSome h1 h2
        rw [hb]
        cases b
        · exact ⟨_, rfl⟩
        · exact ⟨_, rfl⟩
  obtain ⟨w, hw⟩ := hr
  refine ⟨w, ?_⟩
  unfold Prettifier.emit
  rw [hw]

theorem Inv_between {p : Prettifier} :
    Inv .between p ↔ p.start = p.pos ∧ p.pos ≤ p.input.length := Iff.rfl

theorem Inv_inword {p : Prettifier} :
    Inv .inword p ↔ p.start < p.pos ∧ p.pos ≤ p.input.length := Iff.rfl

/-- The fields of the state that `emit` leaves unchanged (plus the `skip`
effect on `start`). -/
theorem emit_fields {p q : Prettifier} (h : p.emit = some q) :
    q.input = p.input ∧ q.start = p.pos ∧ q.pos = p.pos ∧
      q.inSubTest = p.inSubTest ∧ q.seenUnderscore = p.seenUnderscore ∧
      q.folds = p.folds ∧ q.hist = p.hist := by
  obtain ⟨w, -, rfl⟩ := emit_inv h
  exact ⟨rfl, rfl, rfl, rfl, rfl, rfl, rfl⟩

/-- Master run lemma: under the cursor invariant, `fuelNeed` units of fuel
suffice for the machine to reach the terminal state, the input is
preserved, and the final cursor satisfies `start ≤ pos ≤ len + 1`. -/
theorem runF_total : ∀ (fuel : Nat) (st : MState) (p : Prettifier),
    Inv st p → fuelNeed st p ≤ fuel →
    ∃ q, runF fuel st p = some q ∧ q.input = p.input ∧
      q.start ≤ q.pos ∧ q.pos ≤ p.input.length + 1 := by
  intro fuel
  induction fuel with
  | zero =>
      intro st p _ hf
      cases st <;> simp [fuelNeed] at hf
  | succ n ih =>
      intro st p hInv hf
      cases st with
      | between =>
          obtain ⟨hsp, hpl⟩ := Inv_between.1 hInv
          simp only [fuelNeed] at hf
          by_cases hc : p.peek = eofRune
          · refine ⟨(p.logState "betweenWords").walk, ?_, by simp, ?_, ?_⟩
            · simp only [runF, logState_peek]
              rw [if_pos hc]
            · simp
              omega
            · simp
              omega
          · have hlt : p.pos < p.input.length := peek_pos_lt hc
            by_cases hsep : p.peek = '_' ∨ p.peek = '/'
            · obtain ⟨q, hq, hqi, hq1, hq2⟩ :=
                ih .between (p.logState "betweenWords").walk.skip
                  (Inv_between.2 ⟨by simp, by simp; omega⟩)
                  (by simp only [fuelNeed, skip_pos, walk_pos, skip_input,
                    walk_input, logState_input, logState_pos]; omega)
              refine ⟨q, ?_, by simpa using hqi, hq1, by simpa using hq2⟩
              simp only [runF, logState_peek]
              rw [if_neg hc, if_pos hsep]
              exact hq
            · obtain ⟨q, hq, hqi, hq1, hq2⟩ :=
                ih .inword (p.logState "betweenWords").walk
                  (Inv_inword.2 ⟨by simp; omega, by simp; omega⟩)
                  (by simp only [fuelNeed, walk_pos, walk_input,
                    logState_input, logState_pos]; omega)
              refine ⟨q, ?_, by simpa using hqi, hq1, by simpa using hq2⟩
              simp only [runF, logState_peek]
              rw [if_neg hc, if_neg hsep]
              exact hq
      | inword =>
          obtain ⟨hsp, hpl⟩ := Inv_inword.1 hInv
          simp only [fuelNeed] at hf
          obtain ⟨w, hw⟩ :=
            emit_eq (p := p.logState "inWord") (by simpa using hsp)
              (by simpa using hpl)
          obtain ⟨qe, hqe⟩ : ∃ qe, (p.logState "inWord").emit = some qe :=
            ⟨_, hw⟩
          clear hw
          obtain ⟨hqei, hqes, hqep, hqest, hqesu, hqef, hqeh⟩ :=
            emit_fields hqe
          simp only [logState_input, logState_pos, logState_inSubTest,
            logState_seenUnderscore] at hqei hqes hqep hqest hqesu
          have hqeil : qe.input.length = p.input.length := by rw [hqei]
          by_cases hc : p.peek = eofRune
          · refine ⟨qe, ?_, hqei, by omega, by omega⟩
            simp only [runF, logState_peek]
            rw [if_pos hc]
            exact hqe
          · have hlt : p.pos < p.input.length := peek_pos_lt hc
            by_cases hu : p.peek = '_'
            · refine ?_
              have hInvB : Inv .between qe :=
                Inv_between.2 ⟨by omega, by omega⟩
              have hInvM : Inv .between qe.multiWordFunction :=
                Inv_between.2 ⟨by simp; omega, by simp; omega⟩
              by_cases hflag : (!qe.seenUnderscore && !qe.inSubTest) = true
              · obtain ⟨q, hq, hqi, hq1, hq2⟩ :=
                  ih .between qe.multiWordFunction hInvM
                    (by simp only [fuelNeed, mwf_pos, mwf_input, hqei, hqep]
                        omega)
                refine ⟨q, ?_, by simp [hqei] at hqi; simpa using hqi, hq1, ?_⟩
                · simp only [runF, logState_peek]
                  rw [if_neg hc, if_pos hu]
                  simp only [hqe, hflag, if_pos]
                  exact hq
                · simp only [mwf_input, hqei] at hq2
                  omega
              · obtain ⟨q, hq, hqi, hq1, hq2⟩ :=
                  ih .between qe hInvB
                    (by simp only [fuelNeed, hqei, hqep]; omega)
                refine ⟨q, ?_, by simp [hqei] at hqi; exact hqi, hq1, ?_⟩
                · simp only [runF, logState_peek]
                  rw [if_neg hc, if_pos hu]
                  simp only [hqe, hflag, if_neg]
                  exact hq
                · simp only [hqei] at hq2
                  omega
            · by_cases hsl : p.peek = '/'
              · obtain ⟨q, hq, hqi, hq1, hq2⟩ :=
                  ih .between { qe with inSubTest := true }
                    (Inv_between.2 ⟨by simp; omega, by simp; omega⟩)
                    (by simp only [fuelNeed]; simp only [hqei, hqep]; omega)
                refine ⟨q, ?_, ?_, hq1, ?_⟩
                · simp only [runF, logState_peek]
                  rw [if_neg hc, if_neg hu, if_pos hsl]
                  simp only [hqe]
                  exact hq
                · simp only [hqei] at hqi
                  simpa using hqi
                · simp only [hqei] at hq2
                  simpa using hq2
              · have hInvW : Inv .inword (p.logState "inWord").walk :=
                  Inv_inword.2 ⟨by simp; omega, by simp; omega⟩
                have hfW : fuelNeed .inword (p.logState "inWord").walk ≤ n := by
                  simp only [fuelNeed, walk_pos, walk_input, logState_input,
                    logState_pos]
                  omega
                obtain ⟨qw, hqw, hqwi, hqw1, hqw2⟩ := ih _ _ hInvW hfW
                have hqwi' : qw.input = p.input := by simpa using hqwi
                have hqw2' : qw.pos ≤ p.input.length + 1 := by simpa using hqw2
                obtain ⟨qb, hqb, hqbi, hqb1, hqb2⟩ :=
                  ih .between qe (Inv_between.2 ⟨by omega, by omega⟩)
                    (by simp only [fuelNeed, hqei, hqep]; omega)
                have hqbi' : qb.input = p.input := by
                  simp only [hqei] at hqbi; exact hqbi
                have hqb2' : qb.pos ≤ p.input.length + 1 := by
                  simp only [hqei] at hqb2; exact hqb2
                by_cases hd : goIsDigit p.peek = true
                · obtain ⟨pr, hpr⟩ : ∃ c, p.prev = some c :=
                    prev_isSome (by omega) hpl
                  obtain ⟨b, hb⟩ : ∃ b, p.inInitialism = some b :=
                    inInitialism_isSome (by omega) hlt
                  by_cases hpd : goIsDigit pr = true
                  · refine ⟨qw, ?_, hqwi', hqw1, hqw2'⟩
                    simp only [runF, logState_peek, logState_prev]
                    rw [if_neg hc, if_neg hu, if_neg hsl, if_pos hd]
                    simp only [hpr, hpd, if_pos]
                    exact hqw
                  · by_cases hpm : pr = '-'
                    · refine ⟨qw, ?_, hqwi', hqw1, hqw2'⟩
                      simp only [runF, logState_peek, logState_prev]
                      rw [if_neg hc, if_neg hu, if_neg hsl, if_pos hd]
                      simp only [hpr, hpd, hpm, if_neg, if_pos]
                      exact hqw
                    · by_cases hpe : pr = '='
                      · refine ⟨qw, ?_, hqwi', hqw1, hqw2'⟩
                        simp only [runF, logState_peek, logState_prev]
                        rw [if_neg hc, if_neg hu, if_neg hsl, if_pos hd]
                        simp only [hpr, hpd, hpm, hpe, if_neg, if_pos]
                        exact hqw
                      · cases b with
                        | true =>
                            refine ⟨qw, ?_, hqwi', hqw1, hqw2'⟩
                            simp only [runF, logState_peek, logState_prev,
                              logState_inInitialism]
                            rw [if_neg hc, if_neg hu, if_neg hsl, if_pos hd]
                            simp only [hpr, hpd, hpm, hpe, hb, if_neg]
                            exact hqw
                        | false =>
                            refine ⟨qb, ?_, hqbi', hqb1, hqb2'⟩
                            simp only [runF, logState_peek, logState_prev,
                              logState_inInitialism]
                            rw [if_neg hc, if_neg hu, if_neg hsl, if_pos hd]
                            simp only [hpr, hpd, hpm, hpe, hb, hqe, if_neg]
                            exact hqb
                · by_cases hup : goIsUpper p.peek = true
                  · obtain ⟨b, hb⟩ : ∃ b, p.inInitialism = some b :=
                      inInitialism_isSome (by omega) hlt
                    cases b with
                    | true =>
                        refine ⟨qw, ?_, hqwi', hqw1, hqw2'⟩
                        simp only [runF, logState_peek, logState_inInitialism]
                        rw [if_neg hc, if_neg hu, if_neg hsl, if_neg hd,
                          if_pos hup]
                        simp only [hb]
                        exact hqw
                    | false =>
                        refine ⟨qb, ?_, hqbi', hqb1, hqb2'⟩
                        simp only [runF, logState_peek, logState_inInitialism]
                        rw [if_neg hc, if_neg hu, if_neg hsl, if_neg hd,
                          if_pos hup]
                        simp only [hb, hqe]
                        exact hqb
                  · refine ⟨qw, ?_, hqwi', hqw1, hqw2'⟩
                    simp only [runF, logState_peek]
                    rw [if_neg hc, if_neg hu, if_neg hsl, if_neg hd, if_neg hup]
                    exact hqw

/-- Fuel is irrelevant once the machine has reached the terminal state. -/
theorem runF_mono : ∀ fuel fuel' st p q, fuel ≤ fuel' →
    runF fuel st p = some q → runF fuel' st p = some q := by
  intro fuel
  induction fuel with
  | zero =>
      intro fuel' st p q _ h
      simp [runF] at h
  | succ n ih =>
      intro fuel' st p q hle h
      obtain ⟨m, rfl⟩ : ∃ m, fuel' = m + 1 := ⟨fuel' - 1, by omega⟩
      have hnm : n ≤ m := by omega
      cases st with
      | between =>
          simp only [runF, logState_peek] at h ⊢
          by_cases hc : p.peek = eofRune
          · rw [if_pos hc] at h ⊢
            exact h
          · rw [if_neg hc] at h ⊢
            by_cases hsep : p.peek = '_' ∨ p.peek = '/'
            · rw [if_pos hsep] at h ⊢
              exact ih _ _ _ _ hnm h
            · rw [if_neg hsep] at h ⊢
              exact ih _ _ _ _ hnm h
      | inword =>
          simp only [runF, logState_peek, logState_prev,
            logState_inInitialism] at h ⊢
          by_cases hc : p.peek = eofRune
          · rw [if_pos hc] at h ⊢
            exact h
          · rw [if_neg hc] at h ⊢
            by_cases hu : p.peek = '_'
            · rw [if_pos hu] at h ⊢
              revert h
              cases hem : (p.logState "inWord").emit with
              | none => intro h; simp at h
              | some qe =>
                  intro h
                  simp only at h ⊢
                  by_cases hflag : (!qe.seenUnderscore && !qe.inSubTest) = true
                  · rw [if_pos hflag] at h ⊢
                    exact ih _ _ _ _ hnm h
                  · rw [if_neg hflag] at h ⊢
                    exact ih _ _ _ _ hnm h
            · rw [if_neg hu] at h ⊢
              by_cases hsl : p.peek = '/'
              · rw [if_pos hsl] at h ⊢
                revert h
                cases hem : (p.logState "inWord").emit with
                | none => intro h; simp at h
                | some qe =>
                    intro h
                    simp only at h ⊢
                    exact ih _ _ _ _ hnm h
              · rw [if_neg hsl] at h ⊢
                by_cases hd : goIsDigit p.peek = true
                · rw [if_pos hd] at h ⊢
                  revert h
                  cases hpr : p.prev with
                  | none => intro h; simp at h
                  | some pr =>
                      intro h
                      simp only at h ⊢
                      by_cases hpd : goIsDigit pr = true
                      · rw [if_pos hpd] at h ⊢
                        exact ih _ _ _ _ hnm h
                      · rw [if_neg hpd] at h ⊢
                        by_cases hpm : pr = '-'
                        · rw [if_pos hpm] at h ⊢
                          exact ih _ _ _ _ hnm h
                        · rw [if_neg hpm] at h ⊢
                          by_cases hpe : pr = '='
                          · rw [if_pos hpe] at h ⊢
                            exact ih _ _ _ _ hnm h
                          · rw [if_neg hpe] at h ⊢
                            revert h
                            cases hb : p.inInitialism with
                            | none => intro h; simp at h
                            | some b =>
                                intro h
                                cases b with
                                | true =>
                                    simp only at h ⊢
                                    exact ih _ _ _ _ hnm h
                                | false =>
                                    simp only at h ⊢
                                    revert h
                                    cases hem : (p.logState "inWord").emit with
                                    | none => intro h; simp at h
                                    | some qe =>
                                        intro h
                                        simp only at h ⊢
                                        exact ih _ _ _ _ hnm h
                · rw [if_neg hd] at h ⊢
                  by_cases hup : goIsUpper p.peek = true
                  · rw [if_pos hup] at h ⊢
                    revert h
                    cases hb : p.inInitialism with
                    | none => intro h; simp at h
                    | some b =>
                        intro h
                        cases b with
                        | true =>
                            simp only at h ⊢
                            exact ih _ _ _ _ hnm h
                        | false =>
                            simp only at h ⊢
                            revert h
                            cases hem : (p.logState "inWord").emit with
                            | none => intro h; simp at h
                            | some qe =>
                                intro h
                                simp only at h ⊢
                                exact ih _ _ _ _ hnm h
                  · rw [if_neg hup] at h ⊢
                    exact ih _ _ _ _ hnm h

/-! ## Word goodness: emitted words are nonempty and space-free -/

theorem char_toNat_ofNat {n : Nat} (h : n.isValidChar) :
    (Char.ofNat n).toNat = n := by
  simp [Char.ofNat, h, Char.ofNatAux, Char.toNat, UInt32.toNat,
    BitVec.toNat_ofNatLt]

theorem goToUpper_ne_space {c : Char} (h : c ≠ ' ') : goToUpper c ≠ ' ' := by
  intro he
  unfold goToUpper at he
  split at he
  · rename_i hr
    simp only [Bool.or_eq_true, Bool.and_eq_true, decide_eq_true_eq] at hr
    have hv : (c.toNat - 32).isValidChar := by
      unfold Nat.isValidChar
      rcases hr with hr | hr <;> omega
    have hval := char_toNat_ofNat hv
    rw [he] at hval
    have h32 : (' ' : Char).toNat = 32 := by decide
    rcases hr with hr | hr <;> omega
  · exact h he

theorem goToLower_ne_space {c : Char} (h : c ≠ ' ') : goToLower c ≠ ' ' := by
  intro he
  unfold goToLower at he
  split at he
  · rename_i hr
    simp only [Bool.or_eq_true, Bool.and_eq_true, decide_eq_true_eq] at hr
    have hv : (c.toNat + 32).isValidChar := by
      unfold Nat.isValidChar
      rcases hr with hr | hr <;> omega
    have hval := char_toNat_ofNat hv
    rw [he] at hval
    have h32 : (' ' : Char).toNat = 32 := by decide
    rcases hr with hr | hr <;> omega
  · exact h he

theorem titleRun_ne_nil {m wm : Bool} {w : List Char} (h : w ≠ []) :
    titleRun m wm w ≠ [] := by
  cases w with
  | nil => exact absurd rfl h
  | cons c cs =>
      simp only [titleRun]
      split <;> simp

theorem titleRun_no_space : ∀ (w : List Char) (m wm : Bool), ' ' ∉ w →
    ' ' ∉ titleRun m wm w := by
  intro w
  induction w with
  | nil =>
      intro m wm _
      simp [titleRun]
  | cons c cs ih =>
      intro m wm h
      have hc : c ≠ ' ' := fun hce => h (by simp [hce])
      have hcs : ' ' ∉ cs := fun hm => h (List.mem_cons_of_mem _ hm)
      simp only [titleRun]
      split
      · intro hmem
        rcases List.mem_cons.1 hmem with heq | hmem
        · revert heq
          split
          · intro heq
            exact hc heq.symm
          · intro heq
            exact goToUpper_ne_space hc heq.symm
        · exact ih _ _ hcs hmem
      · intro hmem
        rcases List.mem_cons.1 hmem with heq | hmem
        · exact hc heq.symm
        · exact ih _ _ hcs hmem

theorem titleWord_good {w : List Char} (h1 : w ≠ []) (h2 : ' ' ∉ w) :
    titleWord w ≠ [] ∧ ' ' ∉ titleWord w :=
  ⟨titleRun_ne_nil h1, titleRun_no_space w false false h2⟩

theorem lowerWord_good {w : List Char} (h1 : w ≠ []) (h2 : ' ' ∉ w) :
    lowerWord w ≠ [] ∧ ' ' ∉ lowerWord w := by
  constructor
  · simpa [lowerWord] using h1
  · intro hmem
    rw [lowerWord, List.mem_map] at hmem
    obtain ⟨c, hc, heq⟩ := hmem
    exact goToLower_ne_space (fun h => h2 (h ▸ hc)) heq

theorem sliceList_ne_nil {l : List Char} {s t : Nat} (hst : s < t)
    (htl : t ≤ l.length) : sliceList l s t ≠ [] := by
  intro hnil
  have hlen : (sliceList l s t).length = 0 := by rw [hnil]; rfl
  rw [sliceList] at hlen
  simp at hlen
  omega

theorem sliceList_subset {l : List Char} {s t : Nat} {c : Char}
    (hc : c ∈ sliceList l s t) : c ∈ l :=
  List.drop_subset _ _ (List.take_subset _ _ hc)

theorem renderWord_good {p : Prettifier} {w w' : List Char}
    (hr : p.renderWord w = some w') (h1 : w ≠ []) (h2 : ' ' ∉ w) :
    w' ≠ [] ∧ ' ' ∉ w' := by
  unfold Prettifier.renderWord at hr
  split at hr
  · obtain rfl := Option.some.inj hr
    exact titleWord_good h1 h2
  · split at hr
    · split at hr
      · obtain rfl := Option.some.inj hr
        exact ⟨h1, h2⟩
      · obtain rfl := Option.some.inj hr
        exact lowerWord_good h1 h2
    · revert hr
      cases p.isInitialism with
      | none => intro hr; cases hr
      | some b =>
          cases b with
          | true =>
              intro hr
              obtain rfl := Option.some.inj hr
              exact ⟨h1, h2⟩
          | false =>
              intro hr
              obtain rfl := Option.some.inj hr
              exact lowerWord_good h1 h2

theorem emit_words_good {p q : Prettifier} (h : p.emit = some q)
    (hsp : p.start < p.pos) (hpl : p.pos ≤ p.input.length)
    (hns : ' ' ∉ p.input) (hws : ∀ w ∈ p.words, w ≠ [] ∧ ' ' ∉ w) :
    ∀ w ∈ q.words, w ≠ [] ∧ ' ' ∉ w := by
  obtain ⟨w, hr, rfl⟩ := emit_inv h
  intro w' hw'
  rcases List.mem_append.1 hw' with hmem | hmem
  · exact hws _ hmem
  · simp at hmem
    subst hmem
    have hsl1 := sliceList_ne_nil hsp hpl
    have hsl2 : ' ' ∉ sliceList p.input p.start p.pos :=
      fun hm => hns (sliceList_subset hm)
    exact renderWord_good hr hsl1 hsl2

theorem mwf_words_good {p : Prettifier} (hne : p.words ≠ [])
    (hws : ∀ w ∈ p.words, w ≠ [] ∧ ' ' ∉ w) :
    ∀ w ∈ p.multiWordFunction.words, w ≠ [] ∧ ' ' ∉ w := by
  intro w hw
  rw [mwf_words] at hw
  simp only [List.mem_singleton] at hw
  subst hw
  constructor
  · intro hnil
    rw [List.flatten_eq_nil_iff] at hnil
    obtain ⟨w0, hw0⟩ := List.exists_mem_of_ne_nil p.words hne
    obtain ⟨h1, h2⟩ := hws w0 hw0
    exact (titleWord_good h1 h2).1 (hnil (titleWord w0) (List.mem_map_of_mem _ hw0))
  · intro hsp
    rw [List.mem_flatten] at hsp
    obtain ⟨l, hl, hcl⟩ := hsp
    rw [List.mem_map] at hl
    obtain ⟨w0, hw0, rfl⟩ := hl
    obtain ⟨h1, h2⟩ := hws w0 hw0
    exact (titleWord_good h1 h2).2 hcl

/-- If `peek` reports end of input and the input is free of the sentinel
rune, the cursor really sits at (or past) the end. -/
theorem peek_eof_pos {p : Prettifier} (hpk : p.peek = eofRune)
    (hnn : eofRune ∉ p.input) : p.input.length ≤ p.pos := by
  by_contra hlt
  push_neg at hlt
  have hg := List.getElem?_eq_getElem hlt
  have hme : p.input[p.pos] ∈ p.input := List.getElem_mem _
  unfold Prettifier.peek at hpk
  rw [hg] at hpk
  simp only at hpk
  rw [hpk] at hme
  exact hnn hme

/-! ## Backward run facts (history, words, final position) -/

/-- Everything a terminated run guarantees relative to its entry state:
the input is preserved; every new history entry is a cursor pair in
bounds; words stay nonempty and space-free when the input has no space;
and if the input is sentinel-free the scan reaches the end of input. -/
def GoodRun (p q : Prettifier) : Prop :=
  q.input = p.input ∧
  (∀ e ∈ q.hist, e ∈ p.hist ∨ (e.1 ≤ e.2 ∧ e.2 ≤ p.input.length + 1)) ∧
  (' ' ∉ p.input → (∀ w ∈ p.words, w ≠ [] ∧ ' ' ∉ w) →
    ∀ w ∈ q.words, w ≠ [] ∧ ' ' ∉ w) ∧
  (eofRune ∉ p.input → p.input.length ≤ q.pos)

theorem GoodRun.comp {p X q : Prettifier} (hgr : GoodRun X q)
    (hXi : X.input = p.input)
    (hXh : X.hist = p.hist ++ [(p.start, p.pos)])
    (hsp : p.start ≤ p.pos) (hpl : p.pos ≤ p.input.length)
    (hXw : ' ' ∉ p.input → (∀ w ∈ p.words, w ≠ [] ∧ ' ' ∉ w) →
      ∀ w ∈ X.words, w ≠ [] ∧ ' ' ∉ w) :
    GoodRun p q := by
  obtain ⟨hi, hh, hw, hp⟩ := hgr
  refine ⟨by rw [hi, hXi], ?_, ?_, ?_⟩
  · intro e he
    rcases hh e he with hmem | hgood
    · rw [hXh] at hmem
      rcases List.mem_append.1 hmem with hm | hm
      · exact Or.inl hm
      · right
        simp at hm
        subst hm
        exact ⟨hsp, by omega⟩
    · right
      rw [hXi] at hgood
      exact hgood
  · intro hns hws
    exact hw (by rw [hXi]; exact hns) (hXw hns hws)
  · intro hnn
    have := hp (by rw [hXi]; exact hnn)
    rw [hXi] at this
    exact this

/-- Backward induction: any terminated run starting from a state
satisfying the cursor invariant is a `GoodRun`. -/
theorem runF_post : ∀ (fuel : Nat) (st : MState) (p q : Prettifier),
    runF fuel st p = some q → Inv st p → GoodRun p q := by
  intro fuel
  induction fuel with
  | zero =>
      intro st p q h _
      simp [runF] at h
  | succ n ih =>
      intro st p q h hInv
      cases st with
      | between =>
          obtain ⟨hsp, hpl⟩ := Inv_between.1 hInv
          simp only [runF, logState_peek] at h
          by_cases hc : p.peek = eofRune
          · rw [if_pos hc] at h
            obtain rfl := Option.some.inj h
            refine ⟨by simp, ?_, ?_, ?_⟩
            · intro e he
              simp only [walk_hist, logState_hist] at he
              rcases List.mem_append.1 he with hm | hm
              · exact Or.inl hm
              · right
                rw [List.mem_singleton] at hm
                subst hm
                exact ⟨le_of_eq hsp, by simp; omega⟩
            · intro _ hws
              simpa using hws
            · intro hnn
              have := peek_eof_pos hc hnn
              simp only [walk_pos, logState_pos]
              omega
          · rw [if_neg hc] at h
            have hlt : p.pos < p.input.length := peek_pos_lt hc
            by_cases hsep : p.peek = '_' ∨ p.peek = '/'
            · rw [if_pos hsep] at h
              have hInvX : Inv .between (p.logState "betweenWords").walk.skip :=
                Inv_between.2 ⟨by simp, by simp; omega⟩
              exact (ih _ _ _ h hInvX).comp (by simp) (by simp)
                (le_of_eq hsp) hpl (fun _ hws => by simpa using hws)
            · rw [if_neg hsep] at h
              have hInvX : Inv .inword (p.logState "betweenWords").walk :=
                Inv_inword.2 ⟨by simp; omega, by simp; omega⟩
              exact (ih _ _ _ h hInvX).comp (by simp) (by simp)
                (le_of_eq hsp) hpl (fun _ hws => by simpa using hws)
      | inword =>
          obtain ⟨hsp, hpl⟩ := Inv_inword.1 hInv
          simp only [runF, logState_peek, logState_prev,
            logState_inInitialism] at h
          by_cases hc : p.peek = eofRune
          · rw [if_pos hc] at h
            obtain ⟨hqi, hqs, hqp, hqst, hqsu, hqf, hqh⟩ := emit_fields h
            refine ⟨by simpa using hqi, ?_, ?_, ?_⟩
            · intro e he
              rw [hqh, logState_hist] at he
              rcases List.mem_append.1 he with hm | hm
              · exact Or.inl hm
              · right
                rw [List.mem_singleton] at hm
                subst hm
                exact ⟨le_of_lt hsp, by simp; omega⟩
            · intro hns hws
              exact emit_words_good h hsp hpl hns hws
            · intro hnn
              have := peek_eof_pos hc hnn
              simp only [logState_pos] at hqp
              omega
          · rw [if_neg hc] at h
            have hlt : p.pos < p.input.length := peek_pos_lt hc
            by_cases hu : p.peek = '_'
            · rw [if_pos hu] at h
              revert h
              cases hem : (p.logState "inWord").emit with
              | none => intro h; simp at h
              | some qe =>
                  intro h
                  simp only at h
                  obtain ⟨hqi, hqs, hqp, hqst, hqsu, hqf, hqh⟩ :=
                    emit_fields hem
                  simp only [logState_input, logState_pos, logState_inSubTest,
                    logState_seenUnderscore] at hqi hqs hqp hqst hqsu
                  have hqil : qe.input.length = p.input.length := by rw [hqi]
                  have hqhist : qe.hist = p.hist ++ [(p.start, p.pos)] := by
                    rw [hqh, logState_hist]
                  have hqwords : ' ' ∉ p.input →
                      (∀ w ∈ p.words, w ≠ [] ∧ ' ' ∉ w) →
                      ∀ w ∈ qe.words, w ≠ [] ∧ ' ' ∉ w :=
                    fun hns hws => emit_words_good hem hsp hpl hns hws
                  have hqne : qe.words ≠ [] := by
                    obtain ⟨w, -, rfl⟩ := emit_inv hem
                    simp
                  by_cases hflag : (!qe.seenUnderscore && !qe.inSubTest) = true
                  · rw [if_pos hflag] at h
                    have hInvX : Inv .between qe.multiWordFunction :=
                      Inv_between.2 ⟨by simp; omega, by simp; omega⟩
                    exact (ih _ _ _ h hInvX).comp (by simp [hqi])
                      (by simp [hqhist]) (le_of_lt hsp) hpl
                      (fun hns hws => mwf_words_good hqne (hqwords hns hws))
                  · rw [if_neg hflag] at h
                    have hInvX : Inv .between qe :=
                      Inv_between.2 ⟨by omega, by omega⟩
                    exact (ih _ _ _ h hInvX).comp hqi hqhist
                      (le_of_lt hsp) hpl hqwords
            · rw [if_neg hu] at h
              by_cases hsl : p.peek = '/'
              · rw [if_pos hsl] at h
                revert h
                cases hem : (p.logState "inWord").emit with
                | none => intro h; simp at h
                | some qe =>
                    intro h
                    simp only at h
                    obtain ⟨hqi, hqs, hqp, hqst, hqsu, hqf, hqh⟩ :=
                      emit_fields hem
                    simp only [logState_input, logState_pos,
                      logState_inSubTest, logState_seenUnderscore]
                      at hqi hqs hqp hqst hqsu
                    have hqil : qe.input.length = p.input.length := by rw [hqi]
                    have hqhist : qe.hist = p.hist ++ [(p.start, p.pos)] := by
                      rw [hqh, logState_hist]
                    have hInvX : Inv .between { qe with inSubTest := true } :=
                      Inv_between.2 ⟨by simp; omega, by simp; omega⟩
                    exact (ih _ _ _ h hInvX).comp (by simp [hqi])
                      (by simp [hqhist]) (le_of_lt hsp) hpl
                      (fun hns hws => by
                        simpa using emit_words_good hem hsp hpl hns hws)
              · rw [if_neg hsl] at h
                have hInvW : Inv .inword (p.logState "inWord").walk :=
                  Inv_inword.2 ⟨by simp; omega, by simp; omega⟩
                by_cases hd : goIsDigit p.peek = true
                · rw [if_pos hd] at h
                  revert h
                  cases hpr : p.prev with
                  | none => intro h; simp at h
                  | some pr =>
                      intro h
                      simp only at h
                      by_cases hpd : goIsDigit pr = true
                      · rw [if_pos hpd] at h
                        exact (ih _ _ _ h hInvW).comp (by simp) (by simp)
                          (le_of_lt hsp) hpl (fun _ hws => by simpa using hws)
                      · rw [if_neg hpd] at h
                        by_cases hpm : pr = '-'
                        · rw [if_pos hpm] at h
                          exact (ih _ _ _ h hInvW).comp (by simp) (by simp)
                            (le_of_lt hsp) hpl
                            (fun _ hws => by simpa using hws)
                        · rw [if_neg hpm] at h
                          by_cases hpe : pr = '='
                          · rw [if_pos hpe] at h
                            exact (ih _ _ _ h hInvW).comp (by simp) (by simp)
                              (le_of_lt hsp) hpl
                              (fun _ hws => by simpa using hws)
                          · rw [if_neg hpe] at h
                            revert h
                            cases hb : p.inInitialism with
                            | none => intro h; simp at h
                            | some b =>
                                intro h
                                cases b with
                                | true =>
                                    simp only at h
                                    exact (ih _ _ _ h hInvW).comp (by simp)
                                      (by simp) (le_of_lt hsp) hpl
                                      (fun _ hws => by simpa using hws)
                                | false =>
                                    simp only at h
                                    revert h
                                    cases hem : (p.logState "inWord").emit with
                                    | none => intro h; simp at h
                                    | some qe =>
                                        intro h
                                        simp only at h
                                        obtain ⟨hqi, hqs, hqp, hqst, hqsu,
                                          hqf, hqh⟩ := emit_fields hem
                                        simp only [logState_input,
                                          logState_pos, logState_inSubTest,
                                          logState_seenUnderscore]
                                          at hqi hqs hqp hqst hqsu
                                        have hqhist : qe.hist =
                                            p.hist ++ [(p.start, p.pos)] := by
                                          rw [hqh, logState_hist]
                                        have hInvX : Inv .between qe :=
                                          Inv_between.2 ⟨by omega, by
                                            rw [hqp, hqi]; omega⟩
                                        exact (ih _ _ _ h hInvX).comp hqi
                                          hqhist (le_of_lt hsp) hpl
                                          (fun hns hws => emit_words_good hem
                                            hsp hpl hns hws)
                · rw [if_neg hd] at h
                  by_cases hup : goIsUpper p.peek = true
                  · rw [if_pos hup] at h
                    revert h
                    cases hb : p.inInitialism with
                    | none => intro h; simp at h
                    | some b =>
                        intro h
                        cases b with
                        | true =>
                            simp only at h
                            exact (ih _ _ _ h hInvW).comp (by simp) (by simp)
                              (le_of_lt hsp) hpl
                              (fun _ hws => by simpa using hws)
                        | false =>
                            simp only at h
                            revert h
                            cases hem : (p.logState "inWord").emit with
                            | none => intro h; simp at h
                            | some qe =>
                                intro h
                                simp only at h
                                obtain ⟨hqi, hqs, hqp, hqst, hqsu, hqf, hqh⟩ :=
                                  emit_fields hem
                                simp only [logState_input, logState_pos,
                                  logState_inSubTest, logState_seenUnderscore]
                                  at hqi hqs hqp hqst hqsu
                                have hqhist : qe.hist =
                                    p.hist ++ [(p.start, p.pos)] := by
                                  rw [hqh, logState_hist]
                                have hInvX : Inv .between qe :=
                                  Inv_between.2 ⟨by omega, by
                                    rw [hqp, hqi]; omega⟩
                                exact (ih _ _ _ h hInvX).comp hqi hqhist
                                  (le_of_lt hsp) hpl
                                  (fun hns hws => emit_words_good hem hsp hpl
                                    hns hws)
                  · rw [if_neg hup] at h
                    exact (ih _ _ _ h hInvW).comp (by simp) (by simp)
                      (le_of_lt hsp) hpl (fun _ hws => by simpa using hws)

/-! ## Joining words: spacing of the final sentence -/

/-- No two adjacent runes of `l` are both spaces. -/
def noDoubleSpace : List Char → Prop
  | [] => True
  | [_] => True
  | a :: b :: t => ¬(a = ' ' ∧ b = ' ') ∧ noDoubleSpace (b :: t)

theorem noDoubleSpace_of_no_space : ∀ {l : List Char}, ' ' ∉ l →
    noDoubleSpace l
  | [], _ => trivial
  | [_], _ => trivial
  | a :: b :: t, h => by
      refine ⟨fun hab => h (by simp [hab.1]), ?_⟩
      exact noDoubleSpace_of_no_space (fun hm => h (List.mem_cons_of_mem _ hm))

theorem noDoubleSpace_append : ∀ {a b : List Char}, noDoubleSpace a →
    noDoubleSpace b →
    (∀ x y, a.getLast? = some x → b.head? = some y → ¬(x = ' ' ∧ y = ' ')) →
    noDoubleSpace (a ++ b)
  | [], b, _, hb, _ => hb
  | [x], b, _, hb, hmid => by
      cases b with
      | nil => trivial
      | cons y t => exact ⟨hmid x y rfl rfl, hb⟩
  | x :: x' :: a, b, ha, hb, hmid => by
      refine ⟨ha.1, ?_⟩
      exact noDoubleSpace_append ha.2 hb
        (fun u v hu hv => hmid u v (by rw [← hu]; rfl) hv)

theorem joinWords_ne_nil : ∀ {ws : List (List Char)}, ws ≠ [] →
    (∀ w ∈ ws, w ≠ []) → joinWords ws ≠ []
  | [], h, _ => absurd rfl h
  | [w], _, hall => by simpa [joinWords] using hall w (by simp)
  | w :: w' :: ws, _, hall => by
      have hw : w ≠ [] := hall w (by simp)
      cases w with
      | nil => exact absurd rfl hw
      | cons c cs => simp [joinWords]

/-- Joining nonempty space-free words with single spaces yields a sentence
with no leading space, no trailing space and no doubled space. -/
theorem joinWords_spaced : ∀ {ws : List (List Char)},
    (∀ w ∈ ws, w ≠ [] ∧ ' ' ∉ w) →
    (joinWords ws).head? ≠ some ' ' ∧
      (joinWords ws).getLast? ≠ some ' ' ∧ noDoubleSpace (joinWords ws)
  | [], _ => by
      refine ⟨by simp [joinWords], by simp [joinWords], trivial⟩
  | [w], hall => by
      obtain ⟨h1, h2⟩ := hall w (by simp)
      refine ⟨?_, ?_, noDoubleSpace_of_no_space h2⟩
      · intro hh
        simp only [joinWords] at hh
        exact h2 (by
          cases w with
          | nil => cases hh
          | cons c cs =>
              simp at hh
              simp [hh])
      · intro hh
        simp only [joinWords] at hh
        exact h2 (List.mem_of_mem_getLast? hh)
  | w :: w' :: ws, hall => by
      obtain ⟨h1, h2⟩ := hall w (by simp)
      have hall' : ∀ u ∈ w' :: ws, u ≠ [] ∧ ' ' ∉ u :=
        fun u hu => hall u (List.mem_cons_of_mem _ hu)
      obtain ⟨ih1, ih2, ih3⟩ := joinWords_spaced hall'
      have hjnn : joinWords (w' :: ws) ≠ [] :=
        joinWords_ne_nil (by simp) (fun u hu => (hall' u hu).1)
      have hjoin : joinWords (w :: w' :: ws) =
          w ++ ' ' :: joinWords (w' :: ws) := rfl
      refine ⟨?_, ?_, ?_⟩
      · rw [hjoin]
        cases w with
        | nil => exact absurd rfl h1
        | cons c cs =>
            intro hh
            simp at hh
            exact h2 (by simp [hh])
      · rw [hjoin, List.getLast?_append_of_ne_nil _ (by simp)]
        cases hj : joinWords (w' :: ws) with
        | nil => exact absurd hj hjnn
        | cons j jt =>
            rw [show (' ' :: j :: jt).getLast? = (j :: jt).getLast? from rfl]
            rw [← hj]
            exact ih2
      · rw [hjoin]
        refine noDoubleSpace_append (noDoubleSpace_of_no_space h2) ?_ ?_
        · cases hj : joinWords (w' :: ws) with
          | nil => exact absurd hj hjnn
          | cons j jt =>
              refine ⟨fun hsp => ?_, ?_⟩
              · have : (joinWords (w' :: ws)).head? = some ' ' := by
                  rw [hj, hsp.2]
                  rfl
                exact ih1 this
              · have := ih3
                rw [hj] at this
                exact this
        · intro x y hx hy hxy
          exact h2 (hxy.1 ▸ List.mem_of_mem_getLast? hx)

/-! ## Final-state facts -/

/-- The run underlying `Prettify` terminates and is a `GoodRun` from the
initial state. -/
theorem finalState_spec (input : String) :
    ∃ q, finalState input = some q ∧ q.input = trimTest input.data ∧
      q.start ≤ q.pos ∧ q.pos ≤ (trimTest input.data).length + 1 ∧
      GoodRun (initState input) q := by
  have hInv : Inv .between (initState input) :=
    Inv_between.2 ⟨rfl, Nat.zero_le _⟩
  obtain ⟨q, hq, hqi, h1, h2⟩ :=
    runF_total (prettifyFuel input) .between (initState input) hInv
      (by simp [fuelNeed, prettifyFuel, initState])
  exact ⟨q, hq, hqi, h1, h2, runF_post _ _ _ _ hq hInv⟩

/-! ## Claim theorems -/

/-- **C1**: `Prettify` maps each of the six literal spec scenarios to
exactly the stated output. -/
theorem prettify_scenarios :
    Prettify "TestFoo" = some "Foo" ∧
    Prettify "TestFoo/has_well-formed_output" =
      some "Foo has well-formed output" ∧
    Prettify "TestHandleInputClosesInputAfterReading" =
      some "Handle input closes input after reading" ∧
    Prettify "TestHandleInput_ClosesInputAfterReading" =
      some "HandleInput closes input after reading" ∧
    Prettify "TestParseJSON" = some "Parse JSON" ∧
    Prettify "" = some "" :=
  ⟨by decide, by decide, by decide, by decide, by decide, by decide⟩

/-- **C3**: `Prettify` is total: for every input string it returns a
string; in particular no index access of `prev`, `next`, `peek` or
`isInitialism` falls out of bounds (an out-of-bounds access would
propagate as `none`). -/
theorem prettify_total (input : String) : ∃ s, Prettify input = some s := by
  obtain ⟨q, hq, -, -, -, -⟩ := finalState_spec input
  refine ⟨String.mk (joinWords q.words), ?_⟩
  rw [Prettify, hq]
  rfl

/-- **C9**: the state-machine loop of `Prettify` terminates: with the
bounded fuel `prettifyFuel` the machine reaches the terminal state, and
any further fuel leaves the outcome unchanged. -/
theorem prettify_terminates (input : String) (n : Nat)
    (h : prettifyFuel input ≤ n) :
    (finalState input).isSome ∧
      runF n .between (initState input) = finalState input := by
  obtain ⟨q, hq, -, -, -, -⟩ := finalState_spec input
  refine ⟨by rw [hq]; rfl, ?_⟩
  rw [hq]
  exact runF_mono _ _ _ _ _ h hq

theorem prettify_terminates_witness :
    prettifyFuel "TestFoo" ≤ 20 ∧
      ((finalState "TestFoo").isSome ∧
        runF 20 .between (initState "TestFoo") = finalState "TestFoo") :=
  ⟨by decide, prettify_terminates "TestFoo" 20 (by decide)⟩

/-- **C10**: the string returned by `Prettify` depends only on the input:
whether or not the debug switch is set (and whatever sink receives the
trace), the result component is the same. -/
theorem prettify_debug_independent (input : String) (d₁ d₂ : Bool) :
    (prettifyWithDebug d₁ input).1 = (prettifyWithDebug d₂ input).1 := rfl

/-- **C8, counterexample**: on input `"Test"` (trimmed input `""`,
length 0) the machine ends with `pos = 1 > 0`: the claimed invariant
`pos ≤ len(input)` is violated at the exit of `betweenWords`, which
consumes the end-of-input sentinel. -/
theorem cursor_bound_cex :
    (finalState "Test").map (fun q => decide (q.pos ≤ q.input.length)) =
      some false ∧
    (finalState "Test").map Prettifier.pos = some 1 := by
  exact ⟨by decide, by decide⟩

/-- **C8, amended**: at every recorded loop iteration and at exit,
`start ≤ pos ≤ len(input) + 1` (the upper bound `len + 1` is reached
exactly when `betweenWords` consumes the end-of-input sentinel). -/
theorem cursor_bound_inv (input : String) :
    ∃ q, finalState input = some q ∧
      (∀ e ∈ q.hist, e.1 ≤ e.2 ∧
        e.2 ≤ (trimTest input.data).length + 1) ∧
      q.start ≤ q.pos ∧ q.pos ≤ (trimTest input.data).length + 1 := by
  obtain ⟨q, hq, -, h1, h2, -, hh, -, -⟩ := finalState_spec input
  refine ⟨q, hq, ?_, h1, h2⟩
  intro e he
  rcases hh e he with hm | hm
  · simp [initState] at hm
  · simpa [initState] using hm

/-- **C7, counterexample**: the end-of-input sentinel is the rune 0, and a
NUL rune inside the input is treated as end of input: on `"TestA\x00B"`
(trimmed length 3) the scan stops with `pos = 1`, never examining `'B'`. -/
theorem eof_sentinel_cex :
    Prettify "TestA\x00B" = some "A" ∧
    (finalState "TestA\x00B").map Prettifier.pos = some 1 ∧
    (trimTest "TestA\x00B".data).length = 3 :=
  ⟨by decide, by decide, by decide⟩

/-- **C7, amended**: for every input whose trimmed rune sequence does not
contain the sentinel rune 0, the scan examines every character: the final
cursor position reaches the input length. -/
theorem scan_reaches_end (input : String)
    (h : eofRune ∉ trimTest input.data) :
    ∃ q, finalState input = some q ∧
      (trimTest input.data).length ≤ q.pos := by
  obtain ⟨q, hq, -, -, -, -, -, -, hp⟩ := finalState_spec input
  exact ⟨q, hq, hp h⟩

theorem scan_reaches_end_witness :
    eofRune ∉ trimTest "TestFoo".data ∧
      ∃ q, finalState "TestFoo" = some q ∧
        (trimTest "TestFoo".data).length ≤ q.pos :=
  ⟨by decide, scan_reaches_end "TestFoo" (by decide)⟩

/-- **C4, counterexample**: an input containing a space yields an output
with a leading space: `Prettify "Test x" = " X"` (the first word `" x"`
is title-cased to `" X"`, keeping its leading space). -/
theorem spaces_cex :
    Prettify "Test x" = some " X" ∧ (" X" : String).data.head? = some ' ' :=
  ⟨by decide, by decide⟩

/-- **C4, amended**: for every input whose trimmed rune sequence contains
no space rune, the output has no leading space, no trailing space, and no
two consecutive spaces. -/
theorem spaces_ok (input : String) (h : ' ' ∉ trimTest input.data) :
    ∃ q, finalState input = some q ∧
      Prettify input = some (String.mk (joinWords q.words)) ∧
      (joinWords q.words).head? ≠ some ' ' ∧
      (joinWords q.words).getLast? ≠ some ' ' ∧
      noDoubleSpace (joinWords q.words) := by
  obtain ⟨q, hq, -, -, -, -, -, hw, -⟩ := finalState_spec input
  have hgood : ∀ w ∈ q.words, w ≠ [] ∧ ' ' ∉ w := by
    refine hw ?_ ?_
    · simpa [initState] using h
    · intro w hmem
      simp [initState] at hmem
  obtain ⟨j1, j2, j3⟩ := joinWords_spaced hgood
  exact ⟨q, hq, by rw [Prettify, hq]; rfl, j1, j2, j3⟩

theorem spaces_ok_witness :
    ' ' ∉ trimTest "TestFooBar".data ∧
      ∃ q, finalState "TestFooBar" = some q ∧
        Prettify "TestFooBar" = some (String.mk (joinWords q.words)) ∧
        (joinWords q.words).head? ≠ some ' ' ∧
        (joinWords q.words).getLast? ≠ some ' ' ∧
        noDoubleSpace (joinWords q.words) :=
  ⟨by decide, spaces_ok "TestFooBar" (by decide)⟩

/-- **C6, counterexample**: `emit` measures the short-word rule in UTF-8
bytes (Go `len(word) < 3`), not in characters: on `"TestFooÉA"` the
two-character word `ÉA` is three bytes long, so it bypasses the
short-word rule and is appended unchanged by the initialism rule instead
of being lower-cased to `éa`. -/
theorem short_words_cex :
    (finalState "TestFooÉA").map Prettifier.emits =
      some [(['F', 'o', 'o'], ['F', 'o', 'o']), (['É', 'A'], ['É', 'A'])] ∧
    (['É', 'A'] : List Char).length < 3 ∧
    lowerWord ['É', 'A'] = ['é', 'a'] ∧
    Prettify "TestFooÉA" = some "Foo ÉA" :=
  ⟨by decide, by decide, by decide, by decide⟩

/-- **C6, amended**: at every emission, a word other than the first whose
UTF-8 byte length is less than 3 and which is not `"OK"` is appended
fully lower-cased, and a word equal to exactly `"OK"` is appended
verbatim regardless of position (the first-word title-casing leaves
`"OK"` unchanged).  On words of single-byte runes the byte length is the
character count. -/
theorem short_words_lowered (p : Prettifier) :
    (p.words ≠ [] → byteLen (sliceList p.input p.start p.pos) < 3 →
      sliceList p.input p.start p.pos ≠ ['O', 'K'] →
      (p.emit).map Prettifier.words =
        some (p.words ++ [lowerWord (sliceList p.input p.start p.pos)])) ∧
    (sliceList p.input p.start p.pos = ['O', 'K'] →
      (p.emit).map Prettifier.words = some (p.words ++ [['O', 'K']])) := by
  constructor
  · intro hne hlen hok
    unfold Prettifier.emit Prettifier.renderWord
    rw [if_neg (by simpa using hne), if_pos hlen, if_neg hok]
    rfl
  · intro hok
    unfold Prettifier.emit Prettifier.renderWord
    rw [hok]
    by_cases hne : p.words.isEmpty = true
    · rw [if_pos hne]
      have ht : titleWord ['O', 'K'] = ['O', 'K'] := by decide
      rw [ht]
      rfl
    · rw [if_neg hne, if_pos (by decide), if_pos rfl]
      rfl

theorem short_words_lowered_witness :
    (({ input := ['F', 'o', 'o', 'A', 'b'], start := 3, pos := 5,
        words := [['F', 'o', 'o']], inSubTest := false,
        seenUnderscore := false, trace := [], folds := [], hist := [],
        emits := [] } : Prettifier).words ≠ [] ∧
      byteLen (sliceList ['F', 'o', 'o', 'A', 'b'] 3 5) < 3 ∧
      sliceList ['F', 'o', 'o', 'A', 'b'] 3 5 ≠ ['O', 'K'] ∧
      (({ input := ['F', 'o', 'o', 'A', 'b'], start := 3, pos := 5,
          words := [['F', 'o', 'o']], inSubTest := false,
          seenUnderscore := false, trace := [], folds := [], hist := [],
          emits := [] } : Prettifier).emit).map Prettifier.words =
        some [['F', 'o', 'o'], ['a', 'b']]) ∧
    (sliceList ['O', 'K'] 0 2 = ['O', 'K'] ∧
      (({ input := ['O', 'K'], start := 0, pos := 2, words := [],
          inSubTest := false, seenUnderscore := false, trace := [],
          folds := [], hist := [], emits := [] } : Prettifier).emit).map
          Prettifier.words = some [['O', 'K']]) := by
  constructor
  · refine ⟨by decide, by decide, by decide, ?_⟩
    have h := (short_words_lowered
      { input := ['F', 'o', 'o', 'A', 'b'], start := 3, pos := 5,
        words := [['F', 'o', 'o']], inSubTest := false,
        seenUnderscore := false, trace := [], folds := [], hist := [],
        emits := [] }).1 (by decide) (by decide) (by decide)
    rw [h]
    decide
  · refine ⟨by decide, ?_⟩
    have h := (short_words_lowered
      { input := ['O', 'K'], start := 0, pos := 2, words := [],
        inSubTest := false, seenUnderscore := false, trace := [],
        folds := [], hist := [], emits := [] }).2 (by decide)
    rw [h]
    decide

/-! ## The multi-word-function fold: when it fires -/

/-- A rune that can belong to a word (neither an underscore nor a path
separator). -/
def isWordChar (c : Char) : Bool := !(c == '_') && !(c == '/')

/-- A *word-terminating underscore*: an underscore immediately preceded by
a word rune (such an underscore is seen by `inWord`, not skipped by
`betweenWords`). -/
def foldTriggerB (l : List Char) (j : Nat) : Bool :=
  (decide (l[j]? = some '_')) && (decide (1 ≤ j)) &&
    (match l[j - 1]? with
     | some c => isWordChar c
     | none => false)

/-- A *word-terminating slash* — exactly the slashes that set
`inSubTest` (a slash skipped by `betweenWords` does not). -/
def slashTriggerB (l : List Char) (j : Nat) : Bool :=
  (decide (l[j]? = some '/')) && (decide (1 ≤ j)) &&
    (match l[j - 1]? with
     | some c => isWordChar c
     | none => false)

/-- Whether a word-terminating slash occurs at a position `< B`. -/
def subTestSpec (l : List Char) (B : Nat) : Bool :=
  (List.range B).any (fun k => slashTriggerB l k)

/-- The position at which the fold may fire before bound `B`: the first
word-terminating underscore not preceded by a word-terminating slash. -/
def foldSpec (l : List Char) (B : Nat) : List Nat :=
  ((List.range B).filter
    (fun j => foldTriggerB l j && !subTestSpec l j)).take 1

theorem subTestSpec_succ_of_not {l : List Char} {B : Nat}
    (h : slashTriggerB l B = false) :
    subTestSpec l (B + 1) = subTestSpec l B := by
  unfold subTestSpec
  rw [List.range_succ, List.any_append]
  simp [h]

theorem subTestSpec_succ_of_slash {l : List Char} {B : Nat}
    (h : slashTriggerB l B = true) : subTestSpec l (B + 1) = true := by
  unfold subTestSpec
  rw [List.range_succ, List.any_append]
  simp [h]

theorem foldSpec_succ_of_not {l : List Char} {B : Nat}
    (h : (foldTriggerB l B && !subTestSpec l B) = false) :
    foldSpec l (B + 1) = foldSpec l B := by
  unfold foldSpec
  rw [List.range_succ, List.filter_append]
  simp [List.filter, h]

theorem foldSpec_succ_of_nil {l : List Char} {B : Nat}
    (h1 : (foldTriggerB l B && !subTestSpec l B) = true)
    (h2 : foldSpec l B = []) : foldSpec l (B + 1) = [B] := by
  have hfe : (List.range B).filter
      (fun j => foldTriggerB l j && !subTestSpec l j) = [] := by
    unfold foldSpec at h2
    rcases hf : (List.range B).filter
        (fun j => foldTriggerB l j && !subTestSpec l j) with _ | ⟨a, t⟩
    · rfl
    · rw [hf] at h2
      simp at h2
  unfold foldSpec
  rw [List.range_succ, List.filter_append, hfe]
  simp [List.filter, h1]

theorem foldSpec_succ_of_ne {l : List Char} {B : Nat}
    (h2 : foldSpec l B ≠ []) : foldSpec l (B + 1) = foldSpec l B := by
  unfold foldSpec at h2 ⊢
  rcases hf : (List.range B).filter
      (fun j => foldTriggerB l j && !subTestSpec l j) with _ | ⟨a, t⟩
  · rw [hf] at h2
    simp at h2
  · rw [List.range_succ, List.filter_append, hf]
    simp

theorem foldSpec_length {l : List Char} {B : Nat} :
    (foldSpec l B).length ≤ 1 := by
  unfold foldSpec
  simp

/-- The invariant that pins down `folds`, `seenUnderscore` and
`inSubTest` in terms of the scanned prefix of the input.  The bound is
`pos` inside a word and `pos + 1` between words (a boundary rune's flag
effects happen before `betweenWords` walks over it). -/
def C2Inv : MState → Prettifier → Prop
  | .between, p =>
      p.folds = foldSpec p.input (p.pos + 1) ∧
      p.inSubTest = subTestSpec p.input (p.pos + 1) ∧
      p.seenUnderscore = !p.folds.isEmpty
  | .inword, p =>
      p.folds = foldSpec p.input p.pos ∧
      p.inSubTest = subTestSpec p.input p.pos ∧
      p.seenUnderscore = !p.folds.isEmpty ∧
      ∃ c, p.input[p.pos - 1]? = some c ∧ isWordChar c = true

theorem isDigit_wordChar {c : Char} (h : goIsDigit c = true) :
    c ≠ '_' ∧ c ≠ '/' := by
  constructor <;> (rintro rfl; exact absurd h (by decide))

theorem isUpper_wordChar {c : Char} (h : goIsUpper c = true) :
    c ≠ '_' ∧ c ≠ '/' := by
  constructor <;> (rintro rfl; exact absurd h (by decide))

theorem foldTriggerB_false_of_ne {l : List Char} {B : Nat} {c : Char}
    (hg : l[B]? = some c) (hne : c ≠ '_') : foldTriggerB l B = false := by
  unfold foldTriggerB
  rw [hg]
  simp [hne]

theorem slashTriggerB_false_of_ne {l : List Char} {B : Nat} {c : Char}
    (hg : l[B]? = some c) (hne : c ≠ '/') : slashTriggerB l B = false := by
  unfold slashTriggerB
  rw [hg]
  simp [hne]

theorem foldTriggerB_false_of_sep {l : List Char} {B : Nat} {c : Char}
    (hg : l[B - 1]? = some c) (hwc : isWordChar c = false) :
    foldTriggerB l B = false := by
  unfold foldTriggerB
  rw [hg]
  simp [hwc]

theorem slashTriggerB_false_of_sep {l : List Char} {B : Nat} {c : Char}
    (hg : l[B - 1]? = some c) (hwc : isWordChar c = false) :
    slashTriggerB l B = false := by
  unfold slashTriggerB
  rw [hg]
  simp [hwc]

theorem foldTriggerB_true {l : List Char} {B : Nat} {c : Char}
    (hu : l[B]? = some '_') (hB : 1 ≤ B)
    (hg : l[B - 1]? = some c) (hwc : isWordChar c = true) :
    foldTriggerB l B = true := by
  unfold foldTriggerB
  rw [hu, hg]
  simp [hwc, hB]

theorem slashTriggerB_true {l : List Char} {B : Nat} {c : Char}
    (hu : l[B]? = some '/') (hB : 1 ≤ B)
    (hg : l[B - 1]? = some c) (hwc : isWordChar c = true) :
    slashTriggerB l B = true := by
  unfold slashTriggerB
  rw [hu, hg]
  simp [hwc, hB]

theorem C2Inv_between {p : Prettifier} :
    C2Inv .between p ↔
      p.folds = foldSpec p.input (p.pos + 1) ∧
      p.inSubTest = subTestSpec p.input (p.pos + 1) ∧
      p.seenUnderscore = !p.folds.isEmpty := Iff.rfl

theorem C2Inv_inword {p : Prettifier} :
    C2Inv .inword p ↔
      p.folds = foldSpec p.input p.pos ∧
      p.inSubTest = subTestSpec p.input p.pos ∧
      p.seenUnderscore = !p.folds.isEmpty ∧
      ∃ c, p.input[p.pos - 1]? = some c ∧ isWordChar c = true := Iff.rfl

/-- Backward induction for the fold: at termination, the ghost `folds`
field is exactly `foldSpec` of the scanned prefix. -/
theorem runF_folds : ∀ (fuel : Nat) (st : MState) (p q : Prettifier),
    runF fuel st p = some q → Inv st p → C2Inv st p →
    q.folds = foldSpec q.input q.pos := by
  intro fuel
  induction fuel with
  | zero =>
      intro st p q h _ _
      simp [runF] at h
  | succ n ih =>
      intro st p q h hInv hC2
      cases st with
      | between =>
          obtain ⟨hsp, hpl⟩ := Inv_between.1 hInv
          obtain ⟨hfo, hsb, hsn⟩ := C2Inv_between.1 hC2
          simp only [runF, logState_peek] at h
          by_cases hc : p.peek = eofRune
          · rw [if_pos hc] at h
            obtain rfl := Option.some.inj h
            simpa using hfo
          · rw [if_neg hc] at h
            have hlt : p.pos < p.input.length := peek_pos_lt hc
            have hg : p.input[p.pos]? = some p.peek := peek_get hc
            by_cases hsep : p.peek = '_' ∨ p.peek = '/'
            · rw [if_pos hsep] at h
              have hwc : isWordChar p.peek = false := by
                rcases hsep with hsep | hsep <;> rw [hsep] <;> decide
              have hg1 : p.input[(p.pos + 1) - 1]? = some p.peek := by
                simpa using hg
              have htrf : foldTriggerB p.input (p.pos + 1) = false :=
                foldTriggerB_false_of_sep hg1 hwc
              have hslf : slashTriggerB p.input (p.pos + 1) = false :=
                slashTriggerB_false_of_sep hg1 hwc
              have hInvX : Inv .between (p.logState "betweenWords").walk.skip :=
                Inv_between.2 ⟨by simp, by simp; omega⟩
              have hC2X : C2Inv .between (p.logState "betweenWords").walk.skip :=
                C2Inv_between.2 (by
                  refine ⟨?_, ?_, ?_⟩
                  · simp only [skip_folds, walk_folds, logState_folds,
                      skip_input, walk_input, logState_input, skip_pos,
                      walk_pos, logState_pos]
                    rw [foldSpec_succ_of_not (by simp [htrf])]
                    exact hfo
                  · simp only [skip_inSubTest, walk_inSubTest,
                      logState_inSubTest, skip_input, walk_input,
                      logState_input, skip_pos, walk_pos, logState_pos]
                    rw [subTestSpec_succ_of_not hslf]
                    exact hsb
                  · simpa using hsn)
              exact ih _ _ _ h hInvX hC2X
            · rw [if_neg hsep] at h
              push_neg at hsep
              have hInvX : Inv .inword (p.logState "betweenWords").walk :=
                Inv_inword.2 ⟨by simp; omega, by simp; omega⟩
              have hC2X : C2Inv .inword (p.logState "betweenWords").walk :=
                C2Inv_inword.2 (by
                  refine ⟨by simpa using hfo, by simpa using hsb,
                    by simpa using hsn, p.peek, by simpa using hg, ?_⟩
                  simp [isWordChar, hsep.1, hsep.2])
              exact ih _ _ _ h hInvX hC2X
      | inword =>
          obtain ⟨hsp, hpl⟩ := Inv_inword.1 hInv
          obtain ⟨hfo, hsb, hsn, cw, hcw, hcwW⟩ := C2Inv_inword.1 hC2
          simp only [runF, logState_peek, logState_prev,
            logState_inInitialism] at h
          by_cases hc : p.peek = eofRune
          · rw [if_pos hc] at h
            obtain ⟨hqi, hqs, hqp, hqst, hqsu, hqf, hqh⟩ := emit_fields h
            simp only [logState_input, logState_pos, logState_folds] at hqi hqp hqf
            rw [hqf, hqi, hqp]
            simpa using hfo
          · rw [if_neg hc] at h
            have hlt : p.pos < p.input.length := peek_pos_lt hc
            have hg : p.input[p.pos]? = some p.peek := peek_get hc
            by_cases hu : p.peek = '_'
            · rw [if_pos hu] at h
              revert h
              cases hem : (p.logState "inWord").emit with
              | none => intro h; simp at h
              | some qe =>
                  intro h
                  simp only at h
                  obtain ⟨hqi, hqs, hqp, hqst, hqsu, hqf, hqh⟩ :=
                    emit_fields hem
                  simp only [logState_input, logState_pos, logState_inSubTest,
                    logState_seenUnderscore, logState_folds]
                    at hqi hqs hqp hqst hqsu hqf
                  have hgu : p.input[p.pos]? = some '_' := by rw [hg, hu]
                  have htr : foldTriggerB p.input p.pos = true :=
                    foldTriggerB_true hgu (by omega) hcw hcwW
                  have hslf : slashTriggerB p.input p.pos = false :=
                    slashTriggerB_false_of_ne hgu (by decide)
                  by_cases hflag : (!qe.seenUnderscore && !qe.inSubTest) = true
                  · rw [if_pos hflag] at h
                    simp only [Bool.and_eq_true, Bool.not_eq_true'] at hflag
                    have hpsn : p.seenUnderscore = false := by
                      rw [← hqsu]; exact hflag.1
                    have hpst : p.inSubTest = false := by
                      rw [← hqst]; exact hflag.2
                    have hfnil : p.folds = [] := by
                      rw [hpsn] at hsn
                      rcases hf : p.folds with _ | ⟨a, t⟩
                      · rfl
                      · rw [hf] at hsn; simp at hsn
                    have hspec_nil : foldSpec p.input p.pos = [] := by
                      rw [← hfo, hfnil]
                    have hsub_f : subTestSpec p.input p.pos = false := by
                      rw [← hsb, hpst]
                    have hnew : foldSpec p.input (p.pos + 1) = [p.pos] :=
                      foldSpec_succ_of_nil (by simp [htr, hsub_f]) hspec_nil
                    have hInvX : Inv .between qe.multiWordFunction :=
                      Inv_between.2 ⟨by simp; omega, by
                        simp only [mwf_pos, mwf_input, hqp, hqi]; omega⟩
                    have hC2X : C2Inv .between qe.multiWordFunction :=
                      C2Inv_between.2 (by
                        refine ⟨?_, ?_, ?_⟩
                        · simp only [mwf_folds, mwf_input, mwf_pos, hqf,
                            hqi, hqp, hfnil, hnew]
                          rfl
                        · simp only [mwf_inSubTest, mwf_input, mwf_pos,
                            hqst, hqi, hqp, hpst]
                          rw [subTestSpec_succ_of_not hslf]
                          exact hsub_f.symm
                        · simp only [mwf_seenUnderscore, mwf_folds, hqf,
                            hfnil]
                          rfl)
                    exact ih _ _ _ h hInvX hC2X
                  · rw [if_neg hflag] at h
                    have hInvX : Inv .between qe :=
                      Inv_between.2 ⟨by omega, by rw [hqp, hqi]; omega⟩
                    have hflag' : p.seenUnderscore = true ∨
                        p.inSubTest = true := by
                      rw [← hqsu, ← hqst]
                      rcases hb1 : qe.seenUnderscore with _ | _
                      · rcases hb2 : qe.inSubTest with _ | _
                        · exact absurd (by simp [hb1, hb2]) hflag
                        · exact Or.inr rfl
                      · exact Or.inl rfl
                    have hkeep : foldSpec p.input (p.pos + 1) =
                        foldSpec p.input p.pos := by
                      rcases hflag' with hsee | hsub
                      · refine foldSpec_succ_of_ne ?_
                        rw [← hfo]
                        rw [hsee] at hsn
                        rcases hf : p.folds with _ | ⟨a, t⟩
                        · rw [hf] at hsn; simp at hsn
                        · simp [hf]
                      · refine foldSpec_succ_of_not ?_
                        have hst : subTestSpec p.input p.pos = true := by
                          rw [← hsb]
                          exact hsub
                        simp [hst]
                    have hC2X : C2Inv .between qe :=
                      C2Inv_between.2 (by
                        refine ⟨?_, ?_, ?_⟩
                        · rw [hqf, hqi, hqp, hkeep]
                          exact hfo
                        · rw [hqst, hqi, hqp,
                            subTestSpec_succ_of_not hslf]
                          exact hsb
                        · rw [hqsu, hqf]
                          exact hsn)
                    exact ih _ _ _ h hInvX hC2X
            · rw [if_neg hu] at h
              by_cases hsl : p.peek = '/'
              · rw [if_pos hsl] at h
                revert h
                cases hem : (p.logState "inWord").emit with
                | none => intro h; simp at h
                | some qe =>
                    intro h
                    simp only at h
                    obtain ⟨hqi, hqs, hqp, hqst, hqsu, hqf, hqh⟩ :=
                      emit_fields hem
                    simp only [logState_input, logState_pos,
                      logState_inSubTest, logState_seenUnderscore,
                      logState_folds] at hqi hqs hqp hqst hqsu hqf
                    have hgs : p.input[p.pos]? = some '/' := by rw [hg, hsl]
                    have htrf : foldTriggerB p.input p.pos = false :=
                      foldTriggerB_false_of_ne hgs (by decide)
                    have hstr : slashTriggerB p.input p.pos = true :=
                      slashTriggerB_true hgs (by omega) hcw hcwW
                    have hInvX : Inv .between { qe with inSubTest := true } :=
                      Inv_between.2 ⟨by simp; omega, by
                        simp only [hqp, hqi]; omega⟩
                    have hC2X : C2Inv .between { qe with inSubTest := true } :=
                      C2Inv_between.2 (by
                        refine ⟨?_, ?_, ?_⟩
                        · simp only [hqf, hqi, hqp]
                          rw [foldSpec_succ_of_not (by simp [htrf])]
                          exact hfo
                        · simp only [hqi, hqp]
                          rw [subTestSpec_succ_of_slash hstr]
                        · simp only [hqsu, hqf]
                          exact hsn)
                    exact ih _ _ _ h hInvX hC2X
              · rw [if_neg hsl] at h
                have hwcp : isWordChar p.peek = true := by
                  simp [isWordChar, hu, hsl]
                have htrf : foldTriggerB p.input p.pos = false :=
                  foldTriggerB_false_of_ne hg hu
                have hslf : slashTriggerB p.input p.pos = false :=
                  slashTriggerB_false_of_ne hg hsl
                have hInvW : Inv .inword (p.logState "inWord").walk :=
                  Inv_inword.2 ⟨by simp; omega, by simp; omega⟩
                have hC2W : C2Inv .inword (p.logState "inWord").walk :=
                  C2Inv_inword.2 (by
                    refine ⟨?_, ?_, by simpa using hsn, p.peek,
                      by simpa using hg, hwcp⟩
                    · simp only [walk_folds, logState_folds, walk_input,
                        logState_input, walk_pos, logState_pos]
                      rw [foldSpec_succ_of_not (by simp [htrf])]
                      exact hfo
                    · simp only [walk_inSubTest, logState_inSubTest,
                        walk_input, logState_input, walk_pos, logState_pos]
                      rw [subTestSpec_succ_of_not hslf]
                      exact hsb)
                have hboundary : ∀ qe, (p.logState "inWord").emit = some qe →
                    Inv .between qe ∧ C2Inv .between qe := by
                  intro qe hem
                  obtain ⟨hqi, hqs, hqp, hqst, hqsu, hqf, hqh⟩ :=
                    emit_fields hem
                  simp only [logState_input, logState_pos,
                    logState_inSubTest, logState_seenUnderscore,
                    logState_folds] at hqi hqs hqp hqst hqsu hqf
                  refine ⟨Inv_between.2 ⟨by omega, by rw [hqp, hqi]; omega⟩,
                    C2Inv_between.2 ⟨?_, ?_, ?_⟩⟩
                  · rw [hqf, hqi, hqp,
                      foldSpec_succ_of_not (by simp [htrf])]
                    exact hfo
                  · rw [hqst, hqi, hqp, subTestSpec_succ_of_not hslf]
                    exact hsb
                  · rw [hqsu, hqf]
                    exact hsn
                by_cases hd : goIsDigit p.peek = true
                · rw [if_pos hd] at h
                  revert h
                  cases hpr : p.prev with
                  | none => intro h; simp at h
                  | some pr =>
                      intro h
                      simp only at h
                      by_cases hpd : goIsDigit pr = true
                      · rw [if_pos hpd] at h
                        exact ih _ _ _ h hInvW hC2W
                      · rw [if_neg hpd] at h
                        by_cases hpm : pr = '-'
                        · rw [if_pos hpm] at h
                          exact ih _ _ _ h hInvW hC2W
                        · rw [if_neg hpm] at h
                          by_cases hpe : pr = '='
                          · rw [if_pos hpe] at h
                            exact ih _ _ _ h hInvW hC2W
                          · rw [if_neg hpe] at h
                            revert h
                            cases hb : p.inInitialism with
                            | none => intro h; simp at h
                            | some b =>
                                intro h
                                cases b with
                                | true =>
                                    simp only at h
                                    exact ih _ _ _ h hInvW hC2W
                                | false =>
                                    simp only at h
                                    revert h
                                    cases hem :
                                        (p.logState "inWord").emit with
                                    | none => intro h; simp at h
                                    | some qe =>
                                        intro h
                                        simp only at h
                                        obtain ⟨hI, hC⟩ :=
                                          hboundary qe hem
                                        exact ih _ _ _ h hI hC
                · rw [if_neg hd] at h
                  by_cases hup : goIsUpper p.peek = true
                  · rw [if_pos hup] at h
                    revert h
                    cases hb : p.inInitialism with
                    | none => intro h; simp at h
                    | some b =>
                        intro h
                        cases b with
                        | true =>
                            simp only at h
                            exact ih _ _ _ h hInvW hC2W
                        | false =>
                            simp only at h
                            revert h
                            cases hem : (p.logState "inWord").emit with
                            | none => intro h; simp at h
                            | some qe =>
                                intro h
                                simp only at h
                                obtain ⟨hI, hC⟩ := hboundary qe hem
                                exact ih _ _ _ h hI hC
                  · rw [if_neg hup] at h
                    exact ih _ _ _ h hInvW hC2W

/-- **C2, counterexample**: on `"Test_a_b"` (trimmed input `"_a_b"`,
which contains no path separator at all) the first underscore of the
identifier sits at position 0, yet the fold fires at position 2 (the
underscore after `a`): a leading underscore is skipped by `betweenWords`
without folding. -/
theorem fold_fires_cex :
    (finalState "Test_a_b").map Prettifier.folds = some [2] ∧
    ((List.range (trimTest "Test_a_b".data).length).find?
      (fun j => (trimTest "Test_a_b".data)[j]? == some '_')) = some 0 ∧
    '/' ∉ trimTest "Test_a_b".data ∧
    Prettify "Test_a_b" = some "A b" :=
  ⟨by decide, by decide, by decide, by decide⟩

/-- **C2, amended**: the fold fires exactly at the first *word-terminating*
underscore (an underscore immediately preceded by a rune other than `'_'`
or `'/'`) that is not preceded by any *word-terminating* slash, and it
never fires a second time: at exit the ghost `folds` record equals
`foldSpec` over the scanned prefix, a list with at most one element. -/
theorem fold_fires_once (input : String) :
    ∃ q, finalState input = some q ∧
      q.folds = foldSpec q.input q.pos ∧ q.folds.length ≤ 1 := by
  have hInv : Inv .between (initState input) :=
    Inv_between.2 ⟨rfl, Nat.zero_le _⟩
  have hspec1 : foldSpec (trimTest input.data) 1 = [] := by
    rw [show (1 : Nat) = 0 + 1 from rfl,
      foldSpec_succ_of_not (by simp [foldTriggerB])]
    rfl
  have hsub1 : subTestSpec (trimTest input.data) 1 = false := by
    simp [subTestSpec, slashTriggerB]
  have hC2 : C2Inv .between (initState input) :=
    C2Inv_between.2 ⟨hspec1.symm, hsub1.symm, rfl⟩
  obtain ⟨q, hq, -, -⟩ :=
    runF_total (prettifyFuel input) .between (initState input) hInv
      (by simp [fuelNeed, prettifyFuel, initState])
  have hfold := runF_folds _ _ _ _ hq hInv hC2
  exact ⟨q, hq, hfold, by rw [hfold]; exact foldSpec_length⟩

/-! ## Uppercase runs: initialisms are preserved -/

theorem upper_not_lower {c : Char} (h : goIsUpper c = true) :
    goIsLower c = false := by
  cases hlow : goIsLower c with
  | false => rfl
  | true =>
      exfalso
      unfold goIsUpper at h
      unfold goIsLower at hlow
      simp only [Bool.or_eq_true, Bool.and_eq_true, decide_eq_true_eq]
        at h hlow
      omega

theorem digit_not_upper {c : Char} (h : goIsDigit c = true) :
    goIsUpper c = false := by
  cases hup : goIsUpper c with
  | false => rfl
  | true =>
      exfalso
      unfold goIsDigit at h
      unfold goIsUpper at hup
      simp only [Bool.or_eq_true, Bool.and_eq_true, decide_eq_true_eq]
        at h hup
      omega

theorem one_le_utf8Len (c : Char) : 1 ≤ utf8Len c := by
  unfold utf8Len
  split
  · omega
  · split
    · omega
    · split
      · omega
      · omega

theorem length_le_byteLen : ∀ (w : List Char), w.length ≤ byteLen w
  | [] => Nat.le_refl 0
  | c :: cs => by
      have h1 := one_le_utf8Len c
      have h2 := length_le_byteLen cs
      simp only [byteLen, List.map_cons, List.sum_cons, List.length_cons]
        at h2 ⊢
      omega

theorem sliceList_length {l : List Char} {s t : Nat}
    (htl : t ≤ l.length) : (sliceList l s t).length = t - s := by
  simp [sliceList]
  omega

theorem sliceList_getElem? {l : List Char} {s t k : Nat} (hk : k < t - s) :
    (sliceList l s t)[k]? = l[s + k]? := by
  unfold sliceList
  rw [List.getElem?_take, if_pos hk, List.getElem?_drop]

theorem sliceList_snoc {l : List Char} {s t : Nat} {c : Char}
    (hst : s ≤ t) (hg : l[t]? = some c) :
    sliceList l s (t + 1) = sliceList l s t ++ [c] := by
  unfold sliceList
  rw [show t + 1 - s = (t - s) + 1 by omega, List.take_succ,
    List.getElem?_drop, show s + (t - s) = t by omega, hg]
  rfl

theorem sliceList_subset_of_le {l : List Char} {s t t' : Nat} (h : t' ≤ t) :
    ∀ c ∈ sliceList l s t', c ∈ sliceList l s t := by
  intro c hc
  unfold sliceList at hc ⊢
  rw [show t' - s = min (t' - s) (t - s) by omega, ← List.take_take] at hc
  exact List.take_subset _ _ hc

theorem sliceList_getLast {l : List Char} {s t : Nat} (hst : s < t)
    (htl : t ≤ l.length) : (sliceList l s t).getLast? = l[t - 1]? := by
  rw [List.getLast?_eq_getElem?, sliceList_length htl,
    sliceList_getElem? (by omega)]
  congr 1
  omega

/-- Every later upper-case rune of the word has an upper-case
predecessor (true of every word slice the scanner builds: an upper-case
rune is only absorbed into a word when `inInitialism` holds, which
requires an upper-case `prev`). -/
def chainUp : List Char → Prop
  | a :: b :: t => (goIsUpper b = true → goIsUpper a = true) ∧
      chainUp (b :: t)
  | _ => True

theorem chainUp_snoc : ∀ {l : List Char} {c : Char}, chainUp l →
    (goIsUpper c = true → ∀ x, l.getLast? = some x → goIsUpper x = true) →
    chainUp (l ++ [c])
  | [], _, _, _ => trivial
  | [a], _, _, h => ⟨fun hcu => h hcu a rfl, trivial⟩
  | a :: b :: t, c, hl, h => by
      refine ⟨hl.1, ?_⟩
      exact chainUp_snoc hl.2
        (fun hcu x hx => h hcu x (by rw [List.getLast?_cons_cons]; exact hx))

theorem chainUp_all_upper : ∀ {l : List Char}, chainUp l →
    (∀ x, l.getLast? = some x → goIsUpper x = true) →
    ∀ x ∈ l, goIsUpper x = true
  | [], _, _ => by simp
  | [a], _, h => by
      intro x hx
      rw [List.mem_singleton] at hx
      subst hx
      exact h x rfl
  | a :: b :: t, hc, h => by
      intro x hx
      have hrest := chainUp_all_upper hc.2
        (fun y hy => h y (by rw [List.getLast?_cons_cons]; exact hy))
      rcases List.mem_cons.1 hx with rfl | hx'
      · exact hc.1 (hrest b (by simp))
      · exact hrest x hx'

/-- The word ends in (at least) two upper-case runes. -/
def endsUU (w : List Char) : Bool :=
  match w.reverse with
  | b :: a :: _ => goIsUpper b && goIsUpper a
  | _ => false

theorem endsUU_getLast {w : List Char} (h : endsUU w = true) :
    ∀ x, w.getLast? = some x → goIsUpper x = true := by
  intro x hx
  unfold endsUU at h
  revert h
  cases hr : w.reverse with
  | nil => intro h; simp at h
  | cons b rest =>
      cases rest with
      | nil => intro h; simp at h
      | cons a t =>
          intro h
          simp only [Bool.and_eq_true] at h
          have hb : w.getLast? = some b := by
            rw [← List.head?_reverse, hr]
            rfl
          rw [hb] at hx
          obtain rfl := Option.some.inj hx
          exact h.1

theorem inInitialism_prev_upper {p : Prettifier}
    (h : p.inInitialism = some true) :
    ∀ c, p.prev = some c → goIsUpper c = true := by
  intro c hc
  unfold Prettifier.inInitialism at h
  rw [hc] at h
  revert h
  cases hn : p.next with
  | none => intro h; simp at h
  | some nx =>
      intro h
      simp only at h
      have hb := Option.some.inj h
      rw [Bool.and_eq_true] at hb
      exact hb.1

theorem isInitialism_true_of_all_upper {p : Prettifier}
    (hsp : p.start < p.pos) (hpl : p.pos ≤ p.input.length)
    (hall : ∀ x ∈ sliceList p.input p.start p.pos, goIsUpper x = true) :
    p.isInitialism = some true := by
  have hmax : max (p.pos - 1) p.start = p.pos - 1 := by omega
  have hlt : p.pos - 1 < p.input.length := by omega
  have hg : p.input[p.pos - 1]? = some p.input[p.pos - 1] :=
    List.getElem?_eq_getElem hlt
  have hgl : (sliceList p.input p.start p.pos).getLast? =
      some p.input[p.pos - 1] := by
    rw [sliceList_getLast hsp hpl, hg]
  have hlastU : goIsUpper p.input[p.pos - 1] = true :=
    hall _ (List.mem_of_mem_getLast? hgl)
  unfold Prettifier.isInitialism
  rw [hmax, hg]
  have hAll : (sliceList p.input p.start (p.pos - 1)).all
      (fun r => !(goIsLower r)) = true := by
    rw [List.all_eq_true]
    intro r hr
    have hrU : goIsUpper r = true :=
      hall r (sliceList_subset_of_le (by omega) r hr)
    simp [upper_not_lower hrU]
  simp only [hAll, hlastU]
  rfl

/-- All recorded emissions after the first that are at least 3 runes long
and end in two upper-case runes were appended with their casing intact. -/
def EmitsOK (es : List (List Char × List Char)) : Prop :=
  ∀ pr ∈ es.drop 1, 3 ≤ pr.1.length → endsUU pr.1 = true → pr.2 = pr.1

/-- `emit` maintains `EmitsOK` when the emitted slice satisfies the
uppercase-chain shape invariant. -/
theorem emit_emits_ok {p q : Prettifier} (h : p.emit = some q)
    (hsp : p.start < p.pos) (hpl : p.pos ≤ p.input.length)
    (hchain : chainUp (sliceList p.input p.start p.pos))
    (hiff : p.words = [] ↔ p.emits = []) (hok : EmitsOK p.emits) :
    EmitsOK q.emits ∧ (q.words = [] ↔ q.emits = []) := by
  obtain ⟨w, hr, rfl⟩ := emit_inv h
  refine ⟨?_, by simp⟩
  intro pr hpr h3 hUU
  rcases hes : p.emits with _ | ⟨e, es⟩
  · rw [hes] at hpr
    simp at hpr
  · rw [hes] at hpr
    have hpr' : pr ∈ es ++ [(sliceList p.input p.start p.pos, w)] := by
      simpa using hpr
    rcases List.mem_append.1 hpr' with hmem | hmem
    · refine hok pr ?_ h3 hUU
      rw [hes]
      simpa using hmem
    · rw [List.mem_singleton] at hmem
      subst hmem
      have hwne : ¬(p.words.isEmpty = true) := by
        intro hwe
        have hpe := hiff.1 (by simpa using hwe)
        rw [hes] at hpe
        cases hpe
      have hall : ∀ x ∈ sliceList p.input p.start p.pos,
          goIsUpper x = true :=
        chainUp_all_upper hchain (endsUU_getLast hUU)
      have hinit := isInitialism_true_of_all_upper hsp hpl hall
      have h3' : 3 ≤ (sliceList p.input p.start p.pos).length := h3
      have hble := length_le_byteLen (sliceList p.input p.start p.pos)
      unfold Prettifier.renderWord at hr
      rw [if_neg hwne, if_neg (by omega), hinit] at hr
      exact (Option.some.inj hr).symm

/-- The invariant carrying the uppercase-chain shape of the current slice
and the good shape of the recorded emissions. -/
def C5Inv : MState → Prettifier → Prop
  | .between, p => (p.words = [] ↔ p.emits = []) ∧ EmitsOK p.emits
  | .inword, p => (p.words = [] ↔ p.emits = []) ∧ EmitsOK p.emits ∧
      chainUp (sliceList p.input p.start p.pos)

theorem C5Inv_between {p : Prettifier} :
    C5Inv .between p ↔
      (p.words = [] ↔ p.emits = []) ∧ EmitsOK p.emits := Iff.rfl

theorem C5Inv_inword {p : Prettifier} :
    C5Inv .inword p ↔
      (p.words = [] ↔ p.emits = []) ∧ EmitsOK p.emits ∧
      chainUp (sliceList p.input p.start p.pos) := Iff.rfl

/-- Backward induction for initialism preservation: at termination the
recorded emissions satisfy `EmitsOK`. -/
theorem runF_emits : ∀ (fuel : Nat) (st : MState) (p q : Prettifier),
    runF fuel st p = some q → Inv st p → C5Inv st p →
    EmitsOK q.emits := by
  intro fuel
  induction fuel with
  | zero =>
      intro st p q h _ _
      simp [runF] at h
  | succ n ih =>
      intro st p q h hInv hC5
      cases st with
      | between =>
          obtain ⟨hsp, hpl⟩ := Inv_between.1 hInv
          obtain ⟨hif, hok⟩ := C5Inv_between.1 hC5
          simp only [runF, logState_peek] at h
          by_cases hc : p.peek = eofRune
          · rw [if_pos hc] at h
            obtain rfl := Option.some.inj h
            simpa using hok
          · rw [if_neg hc] at h
            have hlt : p.pos < p.input.length := peek_pos_lt hc
            have hg : p.input[p.pos]? = some p.peek := peek_get hc
            by_cases hsep : p.peek = '_' ∨ p.peek = '/'
            · rw [if_pos hsep] at h
              have hInvX : Inv .between (p.logState "betweenWords").walk.skip :=
                Inv_between.2 ⟨by simp, by simp; omega⟩
              exact ih _ _ _ h hInvX
                (C5Inv_between.2 ⟨by simpa using hif, by simpa using hok⟩)
            · rw [if_neg hsep] at h
              have hInvX : Inv .inword (p.logState "betweenWords").walk :=
                Inv_inword.2 ⟨by simp; omega, by simp; omega⟩
              have hsl : sliceList p.input p.start (p.pos + 1) = [p.peek] := by
                rw [hsp, sliceList_snoc (le_refl p.pos) hg]
                simp [sliceList]
              have hC5X : C5Inv .inword (p.logState "betweenWords").walk :=
                C5Inv_inword.2 ⟨by simpa using hif, by simpa using hok, by
                  simp only [walk_input, walk_start, walk_pos,
                    logState_input, logState_start, logState_pos]
                  rw [hsl]
                  trivial⟩
              exact ih _ _ _ h hInvX hC5X
      | inword =>
          obtain ⟨hsp, hpl⟩ := Inv_inword.1 hInv
          obtain ⟨hif, hok, hchain⟩ := C5Inv_inword.1 hC5
          simp only [runF, logState_peek, logState_prev,
            logState_inInitialism] at h
          by_cases hc : p.peek = eofRune
          · rw [if_pos hc] at h
            exact (emit_emits_ok h hsp hpl hchain hif hok).1
          · rw [if_neg hc] at h
            have hlt : p.pos < p.input.length := peek_pos_lt hc
            have hg : p.input[p.pos]? = some p.peek := peek_get hc
            have hwalkC5 :
                (goIsUpper p.peek = true →
                  ∀ x, (sliceList p.input p.start p.pos).getLast? = some x →
                    goIsUpper x = true) →
                C5Inv .inword (p.logState "inWord").walk := by
              intro hcond
              refine C5Inv_inword.2 ⟨by simpa using hif, by simpa using hok, ?_⟩
              simp only [walk_input, walk_start, walk_pos, logState_input,
                logState_start, logState_pos]
              rw [sliceList_snoc (le_of_lt hsp) hg]
              exact chainUp_snoc hchain hcond
            have hInvW : Inv .inword (p.logState "inWord").walk :=
              Inv_inword.2 ⟨by simp; omega, by simp; omega⟩
            by_cases hu : p.peek = '_'
            · rw [if_pos hu] at h
              revert h
              cases hem : (p.logState "inWord").emit with
              | none => intro h; simp at h
              | some qe =>
                  intro h
                  simp only at h
                  obtain ⟨hok', hif'⟩ :=
                    emit_emits_ok hem hsp hpl hchain hif hok
                  have hqene : qe.emits ≠ [] := by
                    obtain ⟨w, -, rfl⟩ := emit_inv hem
                    simp
                  obtain ⟨hqi, hqs, hqp, -, -, -, -⟩ := emit_fields hem
                  simp only [logState_input, logState_pos] at hqi hqs hqp
                  by_cases hflag : (!qe.seenUnderscore && !qe.inSubTest) = true
                  · rw [if_pos hflag] at h
                    have hInvX : Inv .between qe.multiWordFunction :=
                      Inv_between.2 ⟨by simp; omega, by
                        simp only [mwf_pos, mwf_input, hqp, hqi]; omega⟩
                    have hC5X : C5Inv .between qe.multiWordFunction :=
                      C5Inv_between.2 ⟨?_, by simpa using hok'⟩
                    · exact ih _ _ _ h hInvX hC5X
                    · exact iff_of_false (by simp) (by simpa using hqene)
                  · rw [if_neg hflag] at h
                    have hInvX : Inv .between qe :=
                      Inv_between.2 ⟨by omega, by rw [hqp, hqi]; omega⟩
                    exact ih _ _ _ h hInvX (C5Inv_between.2 ⟨hif', hok'⟩)
            · rw [if_neg hu] at h
              by_cases hsl : p.peek = '/'
              · rw [if_pos hsl] at h
                revert h
                cases hem : (p.logState "inWord").emit with
                | none => intro h; simp at h
                | some qe =>
                    intro h
                    simp only at h
                    obtain ⟨hok', hif'⟩ :=
                      emit_emits_ok hem hsp hpl hchain hif hok
                    obtain ⟨hqi, hqs, hqp, -, -, -, -⟩ := emit_fields hem
                    simp only [logState_input, logState_pos] at hqi hqs hqp
                    have hInvX : Inv .between { qe with inSubTest := true } :=
                      Inv_between.2 ⟨by simp; omega, by
                        simp only [hqp, hqi]; omega⟩
                    exact ih _ _ _ h hInvX
                      (C5Inv_between.2 ⟨by simpa using hif',
                        by simpa using hok'⟩)
              · rw [if_neg hsl] at h
                have hboundary : ∀ qe, (p.logState "inWord").emit = some qe →
                    Inv .between qe ∧ C5Inv .between qe := by
                  intro qe hem
                  obtain ⟨hok', hif'⟩ :=
                    emit_emits_ok hem hsp hpl hchain hif hok
                  obtain ⟨hqi, hqs, hqp, -, -, -, -⟩ := emit_fields hem
                  simp only [logState_input, logState_pos] at hqi hqs hqp
                  exact ⟨Inv_between.2 ⟨by omega, by rw [hqp, hqi]; omega⟩,
                    C5Inv_between.2 ⟨hif', hok'⟩⟩
                by_cases hd : goIsDigit p.peek = true
                · rw [if_pos hd] at h
                  have hnu : ¬(goIsUpper p.peek = true) := by
                    simp [digit_not_upper hd]
                  revert h
                  cases hpr : p.prev with
                  | none => intro h; simp at h
                  | some pr =>
                      intro h
                      simp only at h
                      by_cases hpd : goIsDigit pr = true
                      · rw [if_pos hpd] at h
                        exact ih _ _ _ h hInvW
                          (hwalkC5 (fun hcu => absurd hcu hnu))
                      · rw [if_neg hpd] at h
                        by_cases hpm : pr = '-'
                        · rw [if_pos hpm] at h
                          exact ih _ _ _ h hInvW
                            (hwalkC5 (fun hcu => absurd hcu hnu))
                        · rw [if_neg hpm] at h
                          by_cases hpe : pr = '='
                          · rw [if_pos hpe] at h
                            exact ih _ _ _ h hInvW
                              (hwalkC5 (fun hcu => absurd hcu hnu))
                          · rw [if_neg hpe] at h
                            revert h
                            cases hb : p.inInitialism with
                            | none => intro h; simp at h
                            | some b =>
                                intro h
                                cases b with
                                | true =>
                                    simp only at h
                                    exact ih _ _ _ h hInvW
                                      (hwalkC5 (fun hcu => absurd hcu hnu))
                                | false =>
                                    simp only at h
                                    revert h
                                    cases hem :
                                        (p.logState "inWord").emit with
                                    | none => intro h; simp at h
                                    | some qe =>
                                        intro h
                                        simp only at h
                                        obtain ⟨hI, hC⟩ := hboundary qe hem
                                        exact ih _ _ _ h hI hC
                · rw [if_neg hd] at h
                  by_cases hup : goIsUpper p.peek = true
                  · rw [if_pos hup] at h
                    revert h
                    cases hb : p.inInitialism with
                    | none => intro h; simp at h
                    | some b =>
                        intro h
                        cases b with
                        | true =>
                            simp only at h
                            have hprev : p.prev = some p.input[p.pos - 1] := by
                              unfold Prettifier.prev
                              rw [if_neg (by omega),
                                List.getElem?_eq_getElem (by omega)]
                            have hpru : goIsUpper p.input[p.pos - 1] = true :=
                              inInitialism_prev_upper hb _ hprev
                            refine ih _ _ _ h hInvW (hwalkC5 ?_)
                            intro _ x hx
                            rw [sliceList_getLast hsp hpl,
                              List.getElem?_eq_getElem (by omega)] at hx
                            rw [← Option.some.inj hx]
                            exact hpru
                        | false =>
                            simp only at h
                            revert h
                            cases hem : (p.logState "inWord").emit with
                            | none => intro h; simp at h
                            | some qe =>
                                intro h
                                simp only at h
                                obtain ⟨hI, hC⟩ := hboundary qe hem
                                exact ih _ _ _ h hI hC
                  · rw [if_neg hup] at h
                    exact ih _ _ _ h hInvW
                      (hwalkC5 (fun hcu => absurd hcu hup))

/-- **C5, counterexample**: on `"TestFooOS"` the non-first raw word `OS`
ends in a run of two upper-case letters bounded by the end of the word,
yet it is rendered `os`: the short-word rule (length < 3) fires before
the initialism rule. -/
theorem uppercase_run_cex :
    (finalState "TestFooOS").map Prettifier.emits =
      some [(['F', 'o', 'o'], ['F', 'o', 'o']), (['O', 'S'], ['o', 's'])] ∧
    endsUU ['O', 'S'] = true ∧
    Prettify "TestFooOS" = some "Foo os" :=
  ⟨by decide, by decide, by decide⟩

/-- **C5, amended**: every emitted word other than the first of length at
least 3 that ends in a run of two or more upper-case letters bounded by a
word boundary is rendered with its casing unchanged. -/
theorem uppercase_run_preserved (input : String) :
    ∃ q, finalState input = some q ∧
      ∀ pr ∈ q.emits.drop 1, 3 ≤ pr.1.length → endsUU pr.1 = true →
        pr.2 = pr.1 := by
  have hInv : Inv .between (initState input) :=
    Inv_between.2 ⟨rfl, Nat.zero_le _⟩
  have hC5 : C5Inv .between (initState input) := by
    refine C5Inv_between.2 ⟨by simp [initState], ?_⟩
    intro pr hpr
    simp [initState] at hpr
  obtain ⟨q, hq, -, -⟩ :=
    runF_total (prettifyFuel input) .between (initState input) hInv
      (by simp [fuelNeed, prettifyFuel, initState])
  exact ⟨q, hq, runF_emits _ _ _ _ hq hInv hC5⟩

end Gotestdox
